import Mathlib

/-!
Shallow embedding of the healsparse sparse-map engine
(`src/healsparse/healSparseMap.py`).

A `HealSparseMap` owns a coarse coverage index (`covIndexMap`, one signed
offset per coarse pixel) and a dense fine value array (`sparseMap`) laid
out in blocks of `2 ^ bitShift` slots, block 0 being the default/overflow
block.  Values are modelled as integers: integer-dtype maps with an
explicit sentinel are a fully supported configuration of the source, and
all the structural algorithms (addressing, coverage growth, masking,
degrade bookkeeping) are value-type agnostic.  numpy arrays become
`List Int`, fancy-indexed scatter assignment becomes a left fold of
single-element writes (later writes win, as in numpy), and fallible
methods return `Except String`.
-/

/-- Stand-in for healpy's `UNSEEN` constant (a huge negative value used as
the default sentinel). -/
def UNSEEN : Int := -16375 * 10 ^ 26

/-- numpy index semantics: a negative index counts from the end. -/
def npIndex (len : Nat) (i : Int) : Nat :=
  if i < 0 then (i + len).toNat else i.toNat

/-- One numpy element write `a[i] = v` (an out-of-range write is dropped;
the source would fault there, and the theorems show the addresses used by
the engine stay in range). -/
def npSet (l : List Int) (i : Int) (v : Int) : List Int :=
  l.set (npIndex l.length i) v

/-- One numpy element read `a[i]`. -/
def npGetD (l : List Int) (i : Int) : Int :=
  l.getD (npIndex l.length i) 0

/-- A numpy fancy-indexed assignment `a[idx] = vals`: a sequence of
elementwise writes applied left to right, later writes winning. -/
def writeSeq (l : List Int) (ps : List (Int × Int)) : List Int :=
  ps.foldl (fun a p => npSet a p.1 p.2) l

/-- The value stored at position `j` by the last write in `ps` that hits
`j`, if any. -/
def lastAssign : List (Int × Int) → Int → Option Int
  | [], _ => none
  | p :: rest, j =>
      match lastAssign rest j with
      | some v => some v
      | none => if p.1 = j then some p.2 else none

/-- numpy dtypes, abstracted to the two families the engine
distinguishes (integer-valued vs floating storage). -/
inductive DType
  | i64
  | f64
deriving DecidableEq

/-- A typed numpy value array, as passed to `updateValues`. -/
structure NdArray where
  dtype : DType
  data : List Int
deriving DecidableEq

/-- The sparse map state: coverage index, fine value array, bit shift
between the coverage and sparse resolutions, sentinel, and storage
dtype (single-field maps; the record-array variant is `HealSparseRec`
below). -/
structure HealSparseMap where
  covIndexMap : List Int
  sparseMap : List Int
  bitShift : Nat
  sentinel : Int
  dtype : DType
deriving DecidableEq

/-- `2 ** bitShift`: number of fine cells per coarse cell. -/
def nFinePerCov (m : HealSparseMap) : Nat := 2 ^ m.bitShift

/-- Number of coarse (coverage) pixels: the length of the coverage index
(`hp.nside2npix(nsideCoverage)` in the source, which always equals
`covIndexMap.size`). -/
def nCovPix (m : HealSparseMap) : Nat := m.covIndexMap.length

/-- The storage offset a coarse cell resolves to:
`covIndexMap[c] + c * nFinePerCov`. -/
def offsetOf (m : HealSparseMap) (c : Nat) : Int :=
  m.covIndexMap.getD c 0 + (c : Int) * (nFinePerCov m : Int)

/-- `coverageMask` (property): a coarse cell is covered iff
`covIndexMap[c] + c * nFinePerCov >= nFinePerCov`. -/
def coverageMask (m : HealSparseMap) (c : Nat) : Bool :=
  decide ((nFinePerCov m : Int) ≤ m.covIndexMap.getD c 0 + (c : Int) * (nFinePerCov m : Int))

/-- The address computed by `getValuePixel`:
`pixel + covIndexMap[pixel >> bitShift]`. -/
def lookupAddr (m : HealSparseMap) (p : Nat) : Int :=
  (p : Int) + m.covIndexMap.getD (p >>> m.bitShift) 0

/-- `getValuePixel` (nest ordering): read the sparse array at
`pixel + covIndexMap[pixel >> bitShift]`. -/
def getValuePixel (m : HealSparseMap) (p : Nat) : Int :=
  npGetD m.sparseMap (lookupAddr m p)

/-- `getValuePixel(..., validMask=True)`: `values > sentinel`. -/
def getValuePixelValidMask (m : HealSparseMap) (p : Nat) : Bool :=
  decide (getValuePixel m p > m.sentinel)

/-- `makeEmpty`: coverage index `0 - arange(nCov) * nFinePerCov`, one
default block filled with the sentinel. -/
def makeEmpty (nCovCells bitShift : Nat) (dtype : DType) (sentinel : Int) : HealSparseMap :=
  { covIndexMap := (List.range nCovCells).map (fun c => -((c : Int) * (2 ^ bitShift : Nat)))
    sparseMap := List.replicate (2 ^ bitShift) sentinel
    bitShift := bitShift
    sentinel := sentinel
    dtype := dtype }

/-- `covIndexMap + arange(nCov) * nFinePerCov` elementwise, starting the
index count at `k` (the source's vectorized add of the base pixel
offsets). -/
def addOffsets : List Int → Int → Nat → List Int
  | [], _, _ => []
  | v :: rest, nf, k => (v + (k : Int) * nf) :: addOffsets rest nf (k + 1)

/-- `covIndexMap - arange(nCov) * nFinePerCov` elementwise. -/
def subOffsets : List Int → Int → Nat → List Int
  | [], _, _ => []
  | v :: rest, nf, k => (v - (k : Int) * nf) :: subOffsets rest nf (k + 1)

/-- The scatter pairs of `temp[pixList] = arange(pixList.size) * nf + base`,
with the arange starting at `k`. -/
def scatterList : List Nat → Int → Int → Nat → List (Int × Int)
  | [], _, _, _ => []
  | c :: rest, nf, base, k => ((c : Int), (k : Int) * nf + base) :: scatterList rest nf base (k + 1)

/-- `np.unique`: sorted distinct elements. -/
def dedupSorted (l : List Nat) : List Nat :=
  (List.insertionSort (· ≤ ·) l).dedup

/-- The (pixel, value) pairs of one `updateValues` call, in input
order. -/
def ucPairs (pixel : List Nat) (values : List Int) : List (Nat × Int) :=
  pixel.zip values

/-- The pairs whose coarse parent is already covered
(`inCov = np.where(covMask[ipnestCov])`). -/
def ucInCov (m : HealSparseMap) (pairs : List (Nat × Int)) : List (Nat × Int) :=
  pairs.filter (fun q => coverageMask m (q.1 >>> m.bitShift))

/-- The pairs whose coarse parent is not yet covered
(`outCov = np.where(~covMask[ipnestCov])`). -/
def ucOutCov (m : HealSparseMap) (pairs : List (Nat × Int)) : List (Nat × Int) :=
  pairs.filter (fun q => !coverageMask m (q.1 >>> m.bitShift))

/-- The sparse array after the in-coverage writes
(`sparseMap[pix[inCov] + covIndexMap[ipnestCov[inCov]]] = values[inCov]`). -/
def ucS1 (m : HealSparseMap) (pairs : List (Nat × Int)) : List Int :=
  writeSeq m.sparseMap ((ucInCov m pairs).map (fun q => (lookupAddr m q.1, q.2)))

/-- The newly covered coarse cells
(`newCovPix = np.unique(ipnestCov[outCov])`). -/
def ucNewCovPix (m : HealSparseMap) (pairs : List (Nat × Int)) : List Nat :=
  dedupSorted ((ucOutCov m pairs).map (fun q => q.1 >>> m.bitShift))

/-- The rebuilt coverage index: add the base offsets back, scatter the
append positions over the newly covered cells, subtract the base offsets
again. -/
def ucTemp (m : HealSparseMap) (pairs : List (Nat × Int)) : List Int :=
  subOffsets
    (writeSeq (addOffsets m.covIndexMap (nFinePerCov m : Int) 0)
      (scatterList (ucNewCovPix m pairs) (nFinePerCov m : Int) (m.sparseMap.length : Int) 0))
    (nFinePerCov m : Int) 0

/-- The appended blocks: one block per newly covered cell, filled with
`sparseMap[0]`, then the out-of-coverage writes at
`pix[outCov] + covIndexMapTemp[ipnestCov[outCov]] - sparseMap.size`. -/
def ucAppend (m : HealSparseMap) (pairs : List (Nat × Int)) : List Int :=
  writeSeq
    (List.replicate ((ucNewCovPix m pairs).length * nFinePerCov m) ((ucS1 m pairs).getD 0 0))
    ((ucOutCov m pairs).map
      (fun q => ((q.1 : Int) + (ucTemp m pairs).getD (q.1 >>> m.bitShift) 0
                   - (m.sparseMap.length : Int), q.2)))

/-- `updateValues`' mutation body (reached once the ndarray and dtype
checks have passed): write in-coverage targets through the existing
offsets; when some targets fall outside coverage, additionally grow one
block per newly covered coarse cell, rebuild the coverage index entries
for just those cells, and fill the appended blocks. -/
def updateCore (m : HealSparseMap) (pixel : List Nat) (values : List Int) : HealSparseMap :=
  let pairs := ucPairs pixel values
  if (ucOutCov m pairs).isEmpty then { m with sparseMap := ucS1 m pairs }
  else { m with covIndexMap := ucTemp m pairs, sparseMap := ucS1 m pairs ++ ucAppend m pairs }

/-- `updateValues` (nest ordering): reject a non-ndarray argument, then a
dtype mismatch, before mutating anything; otherwise run the growth and
write algorithm. -/
def updateValues (m : HealSparseMap) (pixel : List Nat) (values : Option NdArray) :
    Except String HealSparseMap :=
  match values with
  | none => .error "Values are not a numpy ndarray"
  | some a =>
      if a.dtype = m.dtype then .ok (updateCore m pixel a.data)
      else .error "Data-type mismatch between sparseMap and values"

/-- `convertHealpixMap`'s `ipnest`: the cells valid in the dense input
(valid there always means `> UNSEEN`). -/
def chmIpnest (healpixMap : List Int) : List Nat :=
  (List.range healpixMap.length).filter (fun i => decide (healpixMap.getD i 0 > UNSEEN))

/-- `convertHealpixMap`'s `covPix = np.unique(ipnest >> bitShift)`. -/
def chmCovPix (healpixMap : List Int) (bitShift : Nat) : List Nat :=
  dedupSorted ((chmIpnest healpixMap).map (fun i => i >>> bitShift))

/-- `convertHealpixMap`'s coverage index: zeros, scatter
`arange(1, covPix.size + 1) * nFinePerCov` over `covPix`, subtract the
base offsets. -/
def chmCovIndexMap (healpixMap : List Int) (nCovCells bitShift : Nat) : List Int :=
  subOffsets
    (writeSeq (List.replicate nCovCells 0)
      (scatterList (chmCovPix healpixMap bitShift) ((2 ^ bitShift : Nat) : Int)
        ((2 ^ bitShift : Nat) : Int) 0))
    ((2 ^ bitShift : Nat) : Int) 0

/-- `convertHealpixMap`'s sparse array: `(covPix.size + 1)` blocks filled
with the sentinel, then `sparseMap[ipnest + covIndexMap[ipnestCov]] =
healpixMap[ipnest]`. -/
def chmSparse (healpixMap : List Int) (nCovCells bitShift : Nat) (sentinel : Int) : List Int :=
  writeSeq
    (List.replicate (((chmCovPix healpixMap bitShift).length + 1) * 2 ^ bitShift) sentinel)
    ((chmIpnest healpixMap).map
      (fun (i : Nat) =>
        ((i : Int) + (chmCovIndexMap healpixMap nCovCells bitShift).getD (i >>> bitShift) 0,
         healpixMap.getD i 0)))

/-- `convertHealpixMap`: coverage from the parents of the cells valid in
the dense input, blocks in sorted parent order after one default block,
values scattered through the fresh index. -/
def convertHealpixMap (healpixMap : List Int) (nCovCells bitShift : Nat) (sentinel : Int) :
    List Int × List Int :=
  (chmCovIndexMap healpixMap nCovCells bitShift, chmSparse healpixMap nCovCells bitShift sentinel)

/-- The `HealSparseMap(healpixMap=..., nsideCoverage=...)` constructor
path: build the coverage index and sparse array with
`convertHealpixMap`. -/
def ofHealpixMap (healpixMap : List Int) (nCovCells bitShift : Nat) (sentinel : Int)
    (dtype : DType) : HealSparseMap :=
  { covIndexMap := (convertHealpixMap healpixMap nCovCells bitShift sentinel).1
    sparseMap := (convertHealpixMap healpixMap nCovCells bitShift sentinel).2
    bitShift := bitShift
    sentinel := sentinel
    dtype := dtype }

/-- `validPixels`: for each covered coarse cell in ascending order its
`nFinePerCov` fine pixel ids, filtered by the validity mask. -/
def validPixels (m : HealSparseMap) : List Nat :=
  let validCoverage := (List.range (nCovPix m)).filter (fun c => coverageMask m c)
  let allPix := validCoverage.flatMap
    (fun c => (List.range (nFinePerCov m)).map (fun j => (c <<< m.bitShift) + j))
  allPix.filter (fun p => getValuePixelValidMask m p)

/-- `_applyOperation`'s masked elementwise write: `func` is applied where
the cell is valid (`> sentinel`), other cells keep their value.  The
in-place and copy variants produce the same contents. -/
def applyOperation (m : HealSparseMap) (func : Int → Int → Int) (other : Int) : HealSparseMap :=
  { m with sparseMap := m.sparseMap.map (fun v => if v > m.sentinel then func v other else v) }

/-- `__add__` / `__iadd__` with a constant. -/
def hsAdd (m : HealSparseMap) (other : Int) : HealSparseMap :=
  applyOperation m (fun a b => a + b) other

/-- `__sub__` / `__isub__` with a constant. -/
def hsSub (m : HealSparseMap) (other : Int) : HealSparseMap :=
  applyOperation m (fun a b => a - b) other

/-- `isIntegerMap`. -/
def isIntegerMap (m : HealSparseMap) : Bool :=
  decide (m.dtype = DType.i64)

/-- The mask-selection test of `applyMask`: with `maskBits` unset,
`maskMap.getValuePixel(p) > 0`; with it set,
`(maskMap.getValuePixel(p) & maskBits) > 0`. -/
def maskSelect (maskMap : HealSparseMap) (maskBits : Option Int) (p : Nat) : Bool :=
  match maskBits with
  | none => decide (getValuePixel maskMap p > 0)
  | some bits => decide (Int.land (getValuePixel maskMap p) bits > 0)

/-- `applyMask`: reject non-integer masks, then reset the selected
currently-valid pixels to the sentinel through `updateValues` (whose
dtype check passes by construction, so its mutation body runs).  The
in-place and copy variants produce the same contents. -/
def applyMask (m maskMap : HealSparseMap) (maskBits : Option Int) : Except String HealSparseMap :=
  if !isIntegerMap maskMap then .error "Can only apply a maskMap that is an integer map."
  else
    let badPixels := (validPixels m).filter (fun p => maskSelect maskMap maskBits p)
    .ok (updateCore m badPixels (List.replicate badPixels.length m.sentinel))

/-- One named column of a record-array map. -/
structure RecColumn where
  name : String
  dtype : DType
  data : List Int
deriving DecidableEq

/-- The record-array (multi-field) map variant: same coverage index and
addressing, one designated primary field whose sentinel defines row
validity. -/
structure HealSparseRec where
  covIndexMap : List Int
  columns : List RecColumn
  primary : String
  bitShift : Nat
  sentinel : Int
deriving DecidableEq

/-- Column lookup `sparseMap[key]`. -/
def getColumn (m : HealSparseRec) (key : String) : Option RecColumn :=
  m.columns.find? (fun col => col.name == key)

/-- Modelled from the spec: `checkSentinel` lives in `healsparse/utils.py`,
which is absent from `src/`.  Per the spec (section 3, Sentinel): for
floating types a missing sentinel defaults to the reserved out-of-range
constant `UNSEEN`; for integer types it must be supplied explicitly. -/
def checkSentinel (dtype : DType) (sentinel : Option Int) : Except String Int :=
  match sentinel with
  | some s => .ok s
  | none =>
      match dtype with
      | DType.f64 => .ok UNSEEN
      | DType.i64 => .error "Sentinel must be supplied explicitly for integer types"

/-- `getSingle`: project one field out of a record-array map.  Selecting
the primary field with no sentinel override returns its raw column; any
other selection re-materializes the column, forcing rows invalid in the
primary field to the (checked) sentinel. -/
def getSingle (m : HealSparseRec) (key : String) (sentinel : Option Int) :
    Except String HealSparseMap :=
  match getColumn m key with
  | none => .error "Field not found in recarray"
  | some col =>
      if key = m.primary ∧ sentinel = none then
        .ok { covIndexMap := m.covIndexMap, sparseMap := col.data, bitShift := m.bitShift,
              sentinel := m.sentinel, dtype := col.dtype }
      else
        match checkSentinel col.dtype sentinel with
        | .error e => .error e
        | .ok s =>
            match getColumn m m.primary with
            | none => .error "Primary field not found in recarray"
            | some pcol =>
                let newSparseMap := (List.range col.data.length).map (fun i =>
                  if pcol.data.getD i 0 > m.sentinel then col.data.getD i 0 else s)
                .ok { covIndexMap := m.covIndexMap, sparseMap := newSparseMap,
                      bitShift := m.bitShift, sentinel := s, dtype := col.dtype }

/-- Modelled from the spec: `reduce_array` lives in `healsparse/utils.py`,
absent from `src/`.  Per the spec (section 4.5) the reduction runs per
group of `r` consecutive slots along the last reshape axis, skipping NaN
entries (`none` here), and a group with no remaining entries reduces to
NaN.  `nanmax` is its `reduction='max'` kernel. -/
def nanmax : List (Option Int) → Option Int
  | [] => none
  | none :: rest => nanmax rest
  | some v :: rest =>
      match nanmax rest with
      | none => some v
      | some w => some (max v w)

/-- Modelled from the spec: the `reduction='max'` instance of
`reduce_array` over the flattened `(npop+1, nFineNew, r)` reshape, one
`nanmax` per run of `r` consecutive slots. -/
def reduce_array_max (aux : List (Option Int)) (r : Nat) : List (Option Int) :=
  (List.range (aux.length / r)).map (fun q => nanmax ((aux.drop (q * r)).take r))

/-- Number of covered coarse cells (`np.count_nonzero(coverageMask)`). -/
def countCovered (m : HealSparseMap) : Nat :=
  ((List.range (nCovPix m)).filter (fun c => coverageMask m c)).length

/-- `degrade(..., reduction='max')` on a single-field map: refuse a finer
target, replace cells equal to the sentinel by NaN (`none`), reduce each
run of `r` fine cells, turn NaN back into `UNSEEN`, and rebuild the
coverage index over the same covered cells at the new block size. -/
def degradeMax (m : HealSparseMap) (newBitShift : Nat) : Except String HealSparseMap :=
  if m.bitShift < newBitShift then
    .error "nside_out should be smaller than nside for the sparseMap"
  else
    let nfNew : Int := ((2 ^ newBitShift : Nat) : Int)
    let r := 2 ^ (m.bitShift - newBitShift)
    let aux := m.sparseMap.map (fun v => if v = m.sentinel then none else some v)
    let newSparse := (reduce_array_max aux r).map (fun o => o.getD UNSEEN)
    let covSorted := (List.range (nCovPix m)).filter (fun c => coverageMask m c)
    let newIndex := subOffsets (writeSeq (List.replicate (nCovPix m) 0) (scatterList covSorted nfNew nfNew 0)) nfNew 0
    .ok { covIndexMap := newIndex, sparseMap := newSparse, bitShift := newBitShift,
          sentinel := UNSEEN, dtype := DType.f64 }

/-- The structural invariants of a reachable map: block-sized storage
with at least the default block, default block full of the sentinel,
covered offsets block-aligned inside the array, uncovered cells resolving
to offset 0, and no two covered cells sharing a block. -/
def WellFormed (m : HealSparseMap) : Prop :=
  m.sparseMap.length % nFinePerCov m = 0 ∧
  nFinePerCov m ≤ m.sparseMap.length ∧
  (∀ i < nFinePerCov m, m.sparseMap.getD i 0 = m.sentinel) ∧
  (∀ c < nCovPix m, coverageMask m c = true →
      (nFinePerCov m : Int) ≤ offsetOf m c ∧
      offsetOf m c + (nFinePerCov m : Int) ≤ (m.sparseMap.length : Int) ∧
      offsetOf m c % (nFinePerCov m : Int) = 0) ∧
  (∀ c < nCovPix m, coverageMask m c = false → offsetOf m c = 0) ∧
  (∀ c₁ < nCovPix m, ∀ c₂ < nCovPix m, coverageMask m c₁ = true → coverageMask m c₂ = true →
      offsetOf m c₁ = offsetOf m c₂ → c₁ = c₂)

instance (m : HealSparseMap) : Decidable (WellFormed m) := by
  unfold WellFormed
  exact @instDecidableAnd _ _ inferInstance
    (@instDecidableAnd _ _ inferInstance
      (@instDecidableAnd _ _ inferInstance
        (@instDecidableAnd _ _ inferInstance
          (@instDecidableAnd _ _ inferInstance inferInstance))))

/-- The part of the reachable-state invariant claim C4 is about: the
default block exists and is entirely the sentinel. -/
def Block0Sentinel (m : HealSparseMap) : Prop :=
  nFinePerCov m ≤ m.sparseMap.length ∧ ∀ i < nFinePerCov m, m.sparseMap.getD i 0 = m.sentinel

instance (m : HealSparseMap) : Decidable (Block0Sentinel m) := by
  unfold Block0Sentinel
  exact inferInstance

/-- A small concrete integer map used as evaluation witness: two coarse
cells of four fine cells each, cell 0 covered by block 1 with the value 7
stored at fine pixel 0, cell 1 uncovered. -/
def mapA : HealSparseMap :=
  { covIndexMap := [4, -4], sparseMap := [0, 0, 0, 0, 7, 0, 0, 0],
    bitShift := 2, sentinel := 0, dtype := DType.i64 }

/-- A concrete integer mask map on the same geometry as `mapA`, holding
the (negative, nonzero) mask value -1 at fine pixel 0. -/
def maskA : HealSparseMap :=
  { covIndexMap := [4, -4], sparseMap := [-10, -10, -10, -10, -1, -10, -10, -10],
    bitShift := 2, sentinel := -10, dtype := DType.i64 }

/-- A concrete integer map holding the below-sentinel value -5 at fine
pixel 0 (reachable: `makeEmpty` then `updateValues([0], [-5])`). -/
def mapB : HealSparseMap :=
  { covIndexMap := [4], sparseMap := [0, 0, 0, 0, -5, 0, 0, 0],
    bitShift := 2, sentinel := 0, dtype := DType.i64 }

/-- A concrete two-field record map whose primary field "a" holds the
below-sentinel value -5 at row 4 while field "b" holds 9 there. -/
def recA : HealSparseRec :=
  { covIndexMap := [4],
    columns := [{ name := "a", dtype := DType.i64, data := [0, 0, 0, 0, -5, 0, 0, 0] },
                { name := "b", dtype := DType.i64, data := [0, 0, 0, 0, 9, 0, 0, 0] }],
    primary := "a", bitShift := 2, sentinel := 0 }

/-- A concrete two-field record map whose non-primary field "b" is a
floating column, so selecting it with no override sentinel succeeds
through `checkSentinel`'s `UNSEEN` default. -/
def recB : HealSparseRec :=
  { covIndexMap := [4],
    columns := [{ name := "a", dtype := DType.i64, data := [0, 0, 0, 0, -5, 0, 0, 0] },
                { name := "b", dtype := DType.f64, data := [0, 0, 0, 0, 9, 0, 0, 0] }],
    primary := "a", bitShift := 2, sentinel := 0 }

/-! ### Facts about the write primitives -/

theorem nFinePerCov_pos (m : HealSparseMap) : 0 < nFinePerCov m :=
  Nat.two_pow_pos m.bitShift

theorem writeSeq_cons (l : List Int) (p : Int × Int) (ps : List (Int × Int)) :
    writeSeq l (p :: ps) = writeSeq (npSet l p.1 p.2) ps := rfl

theorem npSet_length (l : List Int) (i v : Int) : (npSet l i v).length = l.length := by
  unfold npSet
  exact List.length_set l _ _

theorem writeSeq_length (l : List Int) (ps : List (Int × Int)) :
    (writeSeq l ps).length = l.length := by
  induction ps generalizing l with
  | nil => rfl
  | cons p ps ih => rw [writeSeq_cons, ih, npSet_length]

theorem getD_set_self (l : List Int) (j : Nat) (v : Int) (h : j < l.length) :
    (l.set j v).getD j 0 = v := by
  rw [List.getD_eq_getElem?_getD, List.getElem?_set_self h]
  rfl

theorem getD_set_ne (l : List Int) (i j : Nat) (v : Int) (h : i ≠ j) :
    (l.set i v).getD j 0 = l.getD j 0 := by
  rw [List.getD_eq_getElem?_getD, List.getElem?_set_ne h, ← List.getD_eq_getElem?_getD]

theorem npIndex_nonneg (len : Nat) (i : Int) (h : 0 ≤ i) : npIndex len i = i.toNat := by
  unfold npIndex
  rw [if_neg (by omega)]

theorem lastAssign_cons (p : Int × Int) (ps : List (Int × Int)) (j : Int) :
    lastAssign (p :: ps) j =
      match lastAssign ps j with
      | some v => some v
      | none => if p.1 = j then some p.2 else none := rfl

theorem lastAssign_eq_none (ps : List (Int × Int)) (j : Int) (h : ∀ p ∈ ps, p.1 ≠ j) :
    lastAssign ps j = none := by
  induction ps with
  | nil => rfl
  | cons p ps ih =>
    rw [lastAssign_cons, ih (fun q hq => h q (List.mem_cons_of_mem p hq))]
    rw [if_neg (h p (List.mem_cons_self p ps))]

/-- Elementwise characterization of a write sequence with nonnegative
addresses: position `j` holds the last value assigned to it, or the
original value if no write hit it. -/
theorem writeSeq_getD (ps : List (Int × Int)) (l : List Int) (j : Nat)
    (hj : j < l.length) (hpos : ∀ p ∈ ps, 0 ≤ p.1) :
    (writeSeq l ps).getD j 0 = (lastAssign ps (j : Int)).getD (l.getD j 0) := by
  induction ps generalizing l with
  | nil => rfl
  | cons p ps ih =>
    rw [writeSeq_cons]
    have hp : 0 ≤ p.1 := hpos p (List.mem_cons_self p ps)
    have hj' : j < (npSet l p.1 p.2).length := by rw [npSet_length]; exact hj
    rw [ih (npSet l p.1 p.2) hj' (fun q hq => hpos q (List.mem_cons_of_mem p hq))]
    rw [lastAssign_cons]
    cases hla : lastAssign ps (j : Int) with
    | some v => rfl
    | none =>
      by_cases hpj : p.1 = (j : Int)
      · rw [if_pos hpj]
        unfold npSet
        rw [npIndex_nonneg _ _ hp]
        have ht : p.1.toNat = j := by omega
        rw [ht, getD_set_self l j p.2 hj]
        rfl
      · rw [if_neg hpj]
        unfold npSet
        rw [npIndex_nonneg _ _ hp]
        have ht : p.1.toNat ≠ j := by omega
        rw [getD_set_ne l _ j p.2 ht]

theorem addOffsets_length (l : List Int) (nf : Int) (k : Nat) :
    (addOffsets l nf k).length = l.length := by
  induction l generalizing k with
  | nil => rfl
  | cons v rest ih => simp [addOffsets, ih]

theorem addOffsets_getD (l : List Int) (nf : Int) (k j : Nat) (hj : j < l.length) :
    (addOffsets l nf k).getD j 0 = l.getD j 0 + ((k + j : Nat) : Int) * nf := by
  induction l generalizing k j with
  | nil => simp at hj
  | cons v rest ih =>
    cases j with
    | zero => simp [addOffsets]
    | succ j' =>
      have hj' : j' < rest.length := by simpa using hj
      have : (addOffsets (v :: rest) nf k).getD (j' + 1) 0 = (addOffsets rest nf (k + 1)).getD j' 0 := by
        simp [addOffsets]
      rw [this, ih (k + 1) j' hj']
      have hc : ((k + 1 + j' : Nat) : Int) = ((k + (j' + 1) : Nat) : Int) := by push_cast; ring
      rw [hc]
      rfl

theorem subOffsets_length (l : List Int) (nf : Int) (k : Nat) :
    (subOffsets l nf k).length = l.length := by
  induction l generalizing k with
  | nil => rfl
  | cons v rest ih => simp [subOffsets, ih]

theorem subOffsets_getD (l : List Int) (nf : Int) (k j : Nat) (hj : j < l.length) :
    (subOffsets l nf k).getD j 0 = l.getD j 0 - ((k + j : Nat) : Int) * nf := by
  induction l generalizing k j with
  | nil => simp at hj
  | cons v rest ih =>
    cases j with
    | zero => simp [subOffsets]
    | succ j' =>
      have hj' : j' < rest.length := by simpa using hj
      have : (subOffsets (v :: rest) nf k).getD (j' + 1) 0 = (subOffsets rest nf (k + 1)).getD j' 0 := by
        simp [subOffsets]
      rw [this, ih (k + 1) j' hj']
      have hc : ((k + 1 + j' : Nat) : Int) = ((k + (j' + 1) : Nat) : Int) := by push_cast; ring
      rw [hc]
      rfl

theorem mem_scatterList (l : List Nat) (nf base : Int) (k : Nat) (p : Int × Int)
    (hp : p ∈ scatterList l nf base k) : ∃ c ∈ l, p.1 = (c : Int) := by
  induction l generalizing k with
  | nil => simp [scatterList] at hp
  | cons c rest ih =>
    rw [scatterList] at hp
    rcases List.mem_cons.mp hp with h | h
    · exact ⟨c, List.mem_cons_self c rest, by rw [h]⟩
    · obtain ⟨c', hc', he⟩ := ih (k + 1) h
      exact ⟨c', List.mem_cons_of_mem c hc', he⟩

theorem scatterList_fst_nonneg (l : List Nat) (nf base : Int) (k : Nat) :
    ∀ p ∈ scatterList l nf base k, 0 ≤ p.1 := by
  intro p hp
  obtain ⟨c, _, he⟩ := mem_scatterList l nf base k p hp
  rw [he]
  exact Int.natCast_nonneg c

theorem lastAssign_scatterList_not_mem (l : List Nat) (nf base : Int) (k : Nat) (x : Nat)
    (hx : x ∉ l) : lastAssign (scatterList l nf base k) (x : Int) = none := by
  apply lastAssign_eq_none
  intro p hp
  obtain ⟨c, hc, he⟩ := mem_scatterList l nf base k p hp
  rw [he]
  intro hcx
  exact hx (by rwa [Nat.cast_inj.mp hcx] at hc)

theorem lastAssign_scatterList_mem (l : List Nat) (nf base : Int) (k : Nat) (x : Nat)
    (hnd : l.Nodup) (hx : x ∈ l) :
    ∃ jx, jx < l.length ∧
      lastAssign (scatterList l nf base k) (x : Int) = some (((k + jx : Nat) : Int) * nf + base) := by
  induction l generalizing k with
  | nil => simp at hx
  | cons c rest ih =>
    rw [scatterList, lastAssign_cons]
    rcases List.mem_cons.mp hx with hxc | hxr
    · have hnr : x ∉ rest := by
        rw [hxc]
        exact (List.nodup_cons.mp hnd).1
      rw [lastAssign_scatterList_not_mem rest nf base (k + 1) x hnr]
      refine ⟨0, by simp, ?_⟩
      rw [if_pos (by rw [hxc])]
      norm_num
    · obtain ⟨jx, hjx, hval⟩ := ih (k + 1) (List.nodup_cons.mp hnd).2 hxr
      rw [hval]
      refine ⟨jx + 1, by simpa using Nat.succ_lt_succ hjx, ?_⟩
      have hc : ((k + 1 + jx : Nat) : Int) = ((k + (jx + 1) : Nat) : Int) := by push_cast; ring
      rw [hc]

theorem dedupSorted_nodup (l : List Nat) : (dedupSorted l).Nodup :=
  List.nodup_dedup _

theorem mem_dedupSorted (l : List Nat) (x : Nat) : x ∈ dedupSorted l ↔ x ∈ l := by
  unfold dedupSorted
  rw [List.mem_dedup]
  exact (List.perm_insertionSort _ l).mem_iff

/-! ### Addressing arithmetic -/

theorem coverageMask_iff (m : HealSparseMap) (c : Nat) :
    coverageMask m c = true ↔ (nFinePerCov m : Int) ≤ offsetOf m c := by
  unfold coverageMask offsetOf
  exact decide_eq_true_iff

theorem parent_mul_le (p bs : Nat) : (p >>> bs) * 2 ^ bs ≤ p := by
  rw [Nat.shiftRight_eq_div_pow]
  exact Nat.div_mul_le_self p (2 ^ bs)

theorem pixel_decomp (p bs : Nat) : p = (p >>> bs) * 2 ^ bs + p % 2 ^ bs := by
  rw [Nat.shiftRight_eq_div_pow]
  calc p = 2 ^ bs * (p / 2 ^ bs) + p % 2 ^ bs := (Nat.div_add_mod p (2 ^ bs)).symm
    _ = p / 2 ^ bs * 2 ^ bs + p % 2 ^ bs := by ring

/-- The lookup address splits into the parent's storage offset plus the
local position inside the block. -/
theorem lookupAddr_eq (m : HealSparseMap) (p : Nat) :
    lookupAddr m p =
      offsetOf m (p >>> m.bitShift) + ((p % 2 ^ m.bitShift : Nat) : Int) := by
  unfold lookupAddr offsetOf nFinePerCov
  have hd := pixel_decomp p m.bitShift
  have hc : ((p : Nat) : Int) = ((p >>> m.bitShift) : Int) * ((2 ^ m.bitShift : Nat) : Int)
      + ((p % 2 ^ m.bitShift : Nat) : Int) := by
    exact_mod_cast hd
  rw [hc]
  push_cast
  ring

theorem localPos_lt (p bs : Nat) : p % 2 ^ bs < 2 ^ bs :=
  Nat.mod_lt p (Nat.two_pow_pos bs)

theorem nf_le_lookupAddr (m : HealSparseMap) (p : Nat)
    (h : coverageMask m (p >>> m.bitShift) = true) :
    (nFinePerCov m : Int) ≤ lookupAddr m p := by
  rw [lookupAddr_eq]
  have := (coverageMask_iff m (p >>> m.bitShift)).mp h
  have : (0 : Int) ≤ ((p % 2 ^ m.bitShift : Nat) : Int) := Int.natCast_nonneg _
  omega

/-! ### Characterization of one update call -/

theorem ucTemp_length (m : HealSparseMap) (pairs : List (Nat × Int)) :
    (ucTemp m pairs).length = nCovPix m := by
  unfold ucTemp
  rw [subOffsets_length, writeSeq_length, addOffsets_length]
  rfl

theorem mem_ucNewCovPix_not_covered (m : HealSparseMap) (pairs : List (Nat × Int)) (c : Nat)
    (hc : c ∈ ucNewCovPix m pairs) : coverageMask m c = false := by
  unfold ucNewCovPix at hc
  rw [mem_dedupSorted] at hc
  obtain ⟨q, hq, he⟩ := List.mem_map.mp hc
  unfold ucOutCov at hq
  have hf := (List.mem_filter.mp hq).2
  rw [← he]
  simpa using hf

theorem parent_mem_ucNewCovPix (m : HealSparseMap) (pairs : List (Nat × Int)) (q : Nat × Int)
    (hq : q ∈ ucOutCov m pairs) : q.1 >>> m.bitShift ∈ ucNewCovPix m pairs := by
  unfold ucNewCovPix
  rw [mem_dedupSorted]
  exact List.mem_map.mpr ⟨q, hq, rfl⟩

theorem ucTemp_getD_not_mem (m : HealSparseMap) (pairs : List (Nat × Int)) (c : Nat)
    (hc : c ∉ ucNewCovPix m pairs) :
    (ucTemp m pairs).getD c 0 = m.covIndexMap.getD c 0 := by
  by_cases hlt : c < nCovPix m
  · unfold ucTemp
    have h1 : c < (writeSeq (addOffsets m.covIndexMap (nFinePerCov m : Int) 0)
        (scatterList (ucNewCovPix m pairs) (nFinePerCov m : Int) (m.sparseMap.length : Int) 0)).length := by
      rw [writeSeq_length, addOffsets_length]
      exact hlt
    rw [subOffsets_getD _ _ 0 c h1]
    rw [writeSeq_getD _ _ c (by rw [addOffsets_length]; exact hlt) (scatterList_fst_nonneg _ _ _ _)]
    rw [lastAssign_scatterList_not_mem _ _ _ _ c hc]
    rw [addOffsets_getD _ _ 0 c hlt]
    simp
  · have h2 : (ucTemp m pairs).length ≤ c := by rw [ucTemp_length]; omega
    have h3 : m.covIndexMap.length ≤ c := by
      unfold nCovPix at hlt
      omega
    rw [List.getD_eq_default _ _ h2, List.getD_eq_default _ _ h3]

theorem ucTemp_getD_mem (m : HealSparseMap) (pairs : List (Nat × Int)) (c : Nat)
    (hc : c ∈ ucNewCovPix m pairs) (hlt : c < nCovPix m) :
    ∃ j, j < (ucNewCovPix m pairs).length ∧
      (ucTemp m pairs).getD c 0 =
        (j : Int) * (nFinePerCov m : Int) + (m.sparseMap.length : Int)
          - (c : Int) * (nFinePerCov m : Int) := by
  obtain ⟨j, hj, hval⟩ := lastAssign_scatterList_mem (ucNewCovPix m pairs)
    (nFinePerCov m : Int) (m.sparseMap.length : Int) 0 c (by unfold ucNewCovPix; exact dedupSorted_nodup _) hc
  refine ⟨j, hj, ?_⟩
  unfold ucTemp
  have h1 : c < (writeSeq (addOffsets m.covIndexMap (nFinePerCov m : Int) 0)
      (scatterList (ucNewCovPix m pairs) (nFinePerCov m : Int) (m.sparseMap.length : Int) 0)).length := by
    rw [writeSeq_length, addOffsets_length]
    exact hlt
  rw [subOffsets_getD _ _ 0 c h1]
  rw [writeSeq_getD _ _ c (by rw [addOffsets_length]; exact hlt) (scatterList_fst_nonneg _ _ _ _)]
  rw [hval]
  simp only [Option.getD_some, Nat.zero_add]

theorem updateCore_bitShift (m : HealSparseMap) (pixel : List Nat) (values : List Int) :
    (updateCore m pixel values).bitShift = m.bitShift := by
  simp only [updateCore]
  split <;> rfl

theorem updateCore_sentinel (m : HealSparseMap) (pixel : List Nat) (values : List Int) :
    (updateCore m pixel values).sentinel = m.sentinel := by
  simp only [updateCore]
  split <;> rfl

theorem updateCore_dtype (m : HealSparseMap) (pixel : List Nat) (values : List Int) :
    (updateCore m pixel values).dtype = m.dtype := by
  simp only [updateCore]
  split <;> rfl

theorem updateCore_covIndexMap_getD (m : HealSparseMap) (pixel : List Nat) (values : List Int)
    (c : Nat) (hc : c ∉ ucNewCovPix m (ucPairs pixel values)) :
    (updateCore m pixel values).covIndexMap.getD c 0 = m.covIndexMap.getD c 0 := by
  simp only [updateCore]
  split
  · rfl
  · exact ucTemp_getD_not_mem m (ucPairs pixel values) c hc

theorem coverageMask_congr (m m' : HealSparseMap) (c : Nat)
    (hb : m'.bitShift = m.bitShift)
    (hg : m'.covIndexMap.getD c 0 = m.covIndexMap.getD c 0) :
    coverageMask m' c = coverageMask m c := by
  unfold coverageMask nFinePerCov
  rw [hb, hg]

theorem updateValues_ok_eq (m : HealSparseMap) (pixel : List Nat) (a : NdArray)
    (m' : HealSparseMap) (h : updateValues m pixel (some a) = .ok m') :
    m' = updateCore m pixel a.data := by
  simp only [updateValues] at h
  by_cases hd : a.dtype = m.dtype
  · rw [if_pos hd] at h
    exact (Except.ok.inj h).symm
  · rw [if_neg hd] at h
    exact absurd h (by simp)

/-- C2: after any `updateValues` call that succeeds (matching dtype), every
coarse cell covered before the call is still covered, and its coverage
index entry (storage offset) is unchanged. -/
theorem C2_coverage_monotone (m : HealSparseMap) (pixel : List Nat) (a : NdArray)
    (m' : HealSparseMap) (hok : updateValues m pixel (some a) = .ok m')
    (c : Nat) (hcov : coverageMask m c = true) :
    coverageMask m' c = true ∧ m'.covIndexMap.getD c 0 = m.covIndexMap.getD c 0 := by
  have hm' := updateValues_ok_eq m pixel a m' hok
  subst hm'
  have hnot : c ∉ ucNewCovPix m (ucPairs pixel a.data) := by
    intro hmem
    rw [mem_ucNewCovPix_not_covered m (ucPairs pixel a.data) c hmem] at hcov
    exact absurd hcov (by simp)
  have hg := updateCore_covIndexMap_getD m pixel a.data c hnot
  refine ⟨?_, hg⟩
  rw [coverageMask_congr m (updateCore m pixel a.data) c (updateCore_bitShift m pixel a.data) hg]
  exact hcov

theorem C2_coverage_monotone_witness :
    coverageMask (updateCore mapA [5] [3]) 0 = true ∧
      (updateCore mapA [5] [3]).covIndexMap.getD 0 0 = mapA.covIndexMap.getD 0 0 :=
  C2_coverage_monotone mapA [5] { dtype := DType.i64, data := [3] }
    (updateCore mapA [5] [3]) rfl 0 (by decide)

/-! ### Block-0 preservation -/

theorem ucS1_length (m : HealSparseMap) (pairs : List (Nat × Int)) :
    (ucS1 m pairs).length = m.sparseMap.length := by
  unfold ucS1
  rw [writeSeq_length]

theorem mem_ucInCov_covered (m : HealSparseMap) (pairs : List (Nat × Int)) (q : Nat × Int)
    (hq : q ∈ ucInCov m pairs) : coverageMask m (q.1 >>> m.bitShift) = true := by
  unfold ucInCov at hq
  exact (List.mem_filter.mp hq).2

theorem mem_ucOutCov_not_covered (m : HealSparseMap) (pairs : List (Nat × Int)) (q : Nat × Int)
    (hq : q ∈ ucOutCov m pairs) : coverageMask m (q.1 >>> m.bitShift) = false := by
  unfold ucOutCov at hq
  have hf := (List.mem_filter.mp hq).2
  simpa using hf

theorem ucInCovWrites_fst_ge (m : HealSparseMap) (pairs : List (Nat × Int)) :
    ∀ p ∈ (ucInCov m pairs).map (fun q => (lookupAddr m q.1, q.2)),
      (nFinePerCov m : Int) ≤ p.1 := by
  intro p hp
  obtain ⟨q, hq, he⟩ := List.mem_map.mp hp
  rw [← he]
  exact nf_le_lookupAddr m q.1 (mem_ucInCov_covered m pairs q hq)

theorem ucInCovWrites_fst_nonneg (m : HealSparseMap) (pairs : List (Nat × Int)) :
    ∀ p ∈ (ucInCov m pairs).map (fun q => (lookupAddr m q.1, q.2)), 0 ≤ p.1 := by
  intro p hp
  have h1 := ucInCovWrites_fst_ge m pairs p hp
  have h2 : (0 : Int) ≤ (nFinePerCov m : Int) := Int.natCast_nonneg _
  omega

/-- The in-coverage writes never touch block 0: they write at addresses
at least `nFinePerCov`. -/
theorem ucS1_getD_block0 (m : HealSparseMap) (pairs : List (Nat × Int)) (i : Nat)
    (hi : i < nFinePerCov m) (hlen : i < m.sparseMap.length) :
    (ucS1 m pairs).getD i 0 = m.sparseMap.getD i 0 := by
  unfold ucS1
  rw [writeSeq_getD _ _ i hlen (ucInCovWrites_fst_nonneg m pairs)]
  rw [lastAssign_eq_none]
  · rfl
  · intro p hp
    have h1 := ucInCovWrites_fst_ge m pairs p hp
    have h2 : ((i : Nat) : Int) < (nFinePerCov m : Int) := by exact_mod_cast hi
    omega

theorem nFinePerCov_updateCore (m : HealSparseMap) (pixel : List Nat) (values : List Int) :
    nFinePerCov (updateCore m pixel values) = nFinePerCov m := by
  unfold nFinePerCov
  rw [updateCore_bitShift]

/-- Block 0 survives `updateCore`: in-coverage writes land at offsets at
least `nFinePerCov`, and growth only appends past the end. -/
theorem updateCore_block0 (m : HealSparseMap) (pixel : List Nat) (values : List Int)
    (h : Block0Sentinel m) : Block0Sentinel (updateCore m pixel values) := by
  obtain ⟨hlen, hsen⟩ := h
  constructor
  · rw [nFinePerCov_updateCore]
    simp only [updateCore]
    split
    · show nFinePerCov m ≤ (ucS1 m (ucPairs pixel values)).length
      rw [ucS1_length]
      exact hlen
    · show nFinePerCov m ≤ (ucS1 m (ucPairs pixel values) ++ ucAppend m (ucPairs pixel values)).length
      rw [List.length_append, ucS1_length]
      omega
  · intro i hi
    rw [nFinePerCov_updateCore] at hi
    rw [updateCore_sentinel]
    have hlt : i < m.sparseMap.length := lt_of_lt_of_le hi hlen
    simp only [updateCore]
    split
    · show (ucS1 m (ucPairs pixel values)).getD i 0 = m.sentinel
      rw [ucS1_getD_block0 m _ i hi hlt]
      exact hsen i hi
    · show (ucS1 m (ucPairs pixel values) ++ ucAppend m (ucPairs pixel values)).getD i 0 = m.sentinel
      rw [List.getD_append]
      · rw [ucS1_getD_block0 m _ i hi hlt]
        exact hsen i hi
      · rw [ucS1_length]
        exact hlt

theorem getD_replicate (n : Nat) (v : Int) (i : Nat) (h : i < n) :
    (List.replicate n v).getD i 0 = v := by
  simp [List.getD_eq_getElem?_getD, List.getElem?_replicate, h]

theorem makeEmpty_block0 (nCovCells bitShift : Nat) (dtype : DType) (sentinel : Int) :
    Block0Sentinel (makeEmpty nCovCells bitShift dtype sentinel) := by
  constructor
  · show 2 ^ bitShift ≤ (List.replicate (2 ^ bitShift) sentinel).length
    rw [List.length_replicate]
  · intro i hi
    exact getD_replicate _ _ i hi

/-- The scatter construction `zeros; z[l] = arange(1, n+1) * nf; z -=
arange * nf` used by `convertHealpixMap` and `degrade`: at a member of
`l` with index `j` the entry resolves to block `j + 1`. -/
theorem covConstruct_getD_mem (n : Nat) (l : List Nat) (nf : Int) (c : Nat)
    (hnd : l.Nodup) (hc : c ∈ l) (hlt : c < n) :
    ∃ j, j < l.length ∧
      (subOffsets (writeSeq (List.replicate n 0) (scatterList l nf nf 0)) nf 0).getD c 0
        = ((j : Int) + 1) * nf - (c : Int) * nf := by
  obtain ⟨j, hj, hval⟩ := lastAssign_scatterList_mem l nf nf 0 c hnd hc
  refine ⟨j, hj, ?_⟩
  have h1 : c < (writeSeq (List.replicate n (0 : Int)) (scatterList l nf nf 0)).length := by
    rw [writeSeq_length, List.length_replicate]
    exact hlt
  rw [subOffsets_getD _ _ 0 c h1]
  rw [writeSeq_getD _ _ c (by rw [List.length_replicate]; exact hlt) (scatterList_fst_nonneg _ _ _ _)]
  rw [hval]
  simp only [Option.getD_some, Nat.zero_add]
  ring

theorem mem_chmIpnest_lt (healpixMap : List Int) (i : Nat) (hi : i ∈ chmIpnest healpixMap) :
    i < healpixMap.length := by
  unfold chmIpnest at hi
  have := (List.mem_filter.mp hi).1
  exact List.mem_range.mp this

theorem parent_mem_chmCovPix (healpixMap : List Int) (bitShift : Nat) (i : Nat)
    (hi : i ∈ chmIpnest healpixMap) : i >>> bitShift ∈ chmCovPix healpixMap bitShift := by
  unfold chmCovPix
  rw [mem_dedupSorted]
  exact List.mem_map.mpr ⟨i, hi, rfl⟩

theorem parent_lt_of_lt (p n bs : Nat) (h : p < n * 2 ^ bs) : p >>> bs < n := by
  rw [Nat.shiftRight_eq_div_pow]
  rw [Nat.mul_comm] at h
  exact Nat.div_lt_of_lt_mul h

/-- All value writes of `convertHealpixMap` land at addresses at least
`nFinePerCov` (valid cells have covered parents, which resolve past the
default block). -/
theorem chmWrites_fst_ge (healpixMap : List Int) (nCovCells bitShift : Nat)
    (hlen : healpixMap.length = nCovCells * 2 ^ bitShift) :
    ∀ p ∈ (chmIpnest healpixMap).map
        (fun (i : Nat) =>
          ((i : Int) + (chmCovIndexMap healpixMap nCovCells bitShift).getD (i >>> bitShift) 0,
           healpixMap.getD i 0)),
      ((2 ^ bitShift : Nat) : Int) ≤ p.1 := by
  intro p hp
  obtain ⟨i, hi, he⟩ := List.mem_map.mp hp
  have hilt : i < healpixMap.length := mem_chmIpnest_lt healpixMap i hi
  have hclt : i >>> bitShift < nCovCells := parent_lt_of_lt i nCovCells bitShift (by omega)
  obtain ⟨j, hj, hval⟩ := covConstruct_getD_mem nCovCells (chmCovPix healpixMap bitShift)
    ((2 ^ bitShift : Nat) : Int) (i >>> bitShift)
    (by unfold chmCovPix; exact dedupSorted_nodup _)
    (parent_mem_chmCovPix healpixMap bitShift i hi) hclt
  rw [← he]
  show ((2 ^ bitShift : Nat) : Int) ≤ (i : Int) + (chmCovIndexMap healpixMap nCovCells bitShift).getD (i >>> bitShift) 0
  unfold chmCovIndexMap
  rw [hval]
  have hbase : (i >>> bitShift) * 2 ^ bitShift ≤ i := parent_mul_le i bitShift
  have hbase' : ((i >>> bitShift : Nat) : Int) * ((2 ^ bitShift : Nat) : Int) ≤ (i : Int) := by
    exact_mod_cast hbase
  have hjpos : (0 : Int) ≤ (j : Int) := Int.natCast_nonneg j
  nlinarith [Int.natCast_nonneg (2 ^ bitShift)]

theorem chmSparse_length (healpixMap : List Int) (nCovCells bitShift : Nat) (sentinel : Int) :
    (chmSparse healpixMap nCovCells bitShift sentinel).length
      = ((chmCovPix healpixMap bitShift).length + 1) * 2 ^ bitShift := by
  unfold chmSparse
  rw [writeSeq_length, List.length_replicate]

/-- C4 helper: block 0 of the map built from a dense healpix map is
entirely the sentinel. -/
theorem ofHealpixMap_block0 (healpixMap : List Int) (nCovCells bitShift : Nat) (sentinel : Int)
    (dtype : DType) (hlen : healpixMap.length = nCovCells * 2 ^ bitShift) :
    Block0Sentinel (ofHealpixMap healpixMap nCovCells bitShift sentinel dtype) := by
  constructor
  · show 2 ^ bitShift ≤ (chmSparse healpixMap nCovCells bitShift sentinel).length
    rw [chmSparse_length]
    have h1 : 1 * 2 ^ bitShift ≤ ((chmCovPix healpixMap bitShift).length + 1) * 2 ^ bitShift :=
      Nat.mul_le_mul_right _ (by omega)
    omega
  · intro i hi
    show (chmSparse healpixMap nCovCells bitShift sentinel).getD i 0 = sentinel
    unfold chmSparse
    have hirep : i < (List.replicate (((chmCovPix healpixMap bitShift).length + 1) * 2 ^ bitShift) sentinel).length := by
      rw [List.length_replicate]
      have h1 : 1 * 2 ^ bitShift ≤ ((chmCovPix healpixMap bitShift).length + 1) * 2 ^ bitShift :=
        Nat.mul_le_mul_right _ (by omega)
      have : i < 2 ^ bitShift := hi
      omega
    rw [writeSeq_getD _ _ i hirep ?hpos]
    case hpos =>
      intro p hp
      have := chmWrites_fst_ge healpixMap nCovCells bitShift hlen p hp
      have h2 : (0 : Int) ≤ ((2 ^ bitShift : Nat) : Int) := Int.natCast_nonneg _
      omega
    rw [lastAssign_eq_none]
    · exact getD_replicate _ _ i (by rw [List.length_replicate] at hirep; exact hirep)
    · intro p hp
      have h1 := chmWrites_fst_ge healpixMap nCovCells bitShift hlen p hp
      have h2 : ((i : Nat) : Int) < ((2 ^ bitShift : Nat) : Int) := by exact_mod_cast hi
      omega

theorem getD_map (f : Int → Int) (l : List Int) (i : Nat) (h : i < l.length) :
    (l.map f).getD i 0 = f (l.getD i 0) := by
  have he : l[i]? = some l[i] := List.getElem?_eq_getElem h
  simp [List.getD_eq_getElem?_getD, List.getElem?_map, he]

theorem applyOperation_sparse_getD (m : HealSparseMap) (func : Int → Int → Int) (other : Int)
    (i : Nat) (h : i < m.sparseMap.length) :
    (applyOperation m func other).sparseMap.getD i 0 =
      if m.sparseMap.getD i 0 > m.sentinel then func (m.sparseMap.getD i 0) other
      else m.sparseMap.getD i 0 := by
  unfold applyOperation
  exact getD_map _ _ i h

theorem applyOperation_sparse_length (m : HealSparseMap) (func : Int → Int → Int) (other : Int) :
    (applyOperation m func other).sparseMap.length = m.sparseMap.length := by
  unfold applyOperation
  exact List.length_map _ _

theorem applyOperation_block0 (m : HealSparseMap) (func : Int → Int → Int) (other : Int)
    (h : Block0Sentinel m) : Block0Sentinel (applyOperation m func other) := by
  obtain ⟨hlen, hsen⟩ := h
  constructor
  · show nFinePerCov m ≤ (applyOperation m func other).sparseMap.length
    rw [applyOperation_sparse_length]
    exact hlen
  · intro i hi
    have hi' : i < m.sparseMap.length := lt_of_lt_of_le hi hlen
    rw [applyOperation_sparse_getD m func other i hi']
    rw [hsen i hi]
    rw [if_neg (lt_irrefl m.sentinel)]
    rfl

theorem applyMask_ok_eq (m maskMap : HealSparseMap) (maskBits : Option Int)
    (m' : HealSparseMap) (h : applyMask m maskMap maskBits = .ok m') :
    m' = updateCore m ((validPixels m).filter (fun p => maskSelect maskMap maskBits p))
      (List.replicate ((validPixels m).filter (fun p => maskSelect maskMap maskBits p)).length
        m.sentinel) := by
  unfold applyMask at h
  by_cases hint : !isIntegerMap maskMap
  · rw [if_pos hint] at h
    exact absurd h (by simp)
  · rw [if_neg hint] at h
    exact (Except.ok.inj h).symm

/-- C4: block 0 of the value array is entirely the sentinel after
construction (`makeEmpty`, the healpix-map constructor) and is preserved
by `updateValues`, `applyMask` and the masked arithmetic kernel, none of
which writes into block 0. -/
theorem C4_block0_invariant :
    (∀ nCovCells bitShift dtype sentinel,
        Block0Sentinel (makeEmpty nCovCells bitShift dtype sentinel)) ∧
    (∀ healpixMap nCovCells bitShift sentinel dtype,
        healpixMap.length = nCovCells * 2 ^ bitShift →
        Block0Sentinel (ofHealpixMap healpixMap nCovCells bitShift sentinel dtype)) ∧
    (∀ m pixel a m', Block0Sentinel m → updateValues m pixel (some a) = .ok m' →
        Block0Sentinel m') ∧
    (∀ m maskMap maskBits m', Block0Sentinel m → applyMask m maskMap maskBits = .ok m' →
        Block0Sentinel m') ∧
    (∀ m func other, Block0Sentinel m → Block0Sentinel (applyOperation m func other)) := by
  refine ⟨makeEmpty_block0, ?_, ?_, ?_, applyOperation_block0⟩
  · intro healpixMap nCovCells bitShift sentinel dtype hlen
    exact ofHealpixMap_block0 healpixMap nCovCells bitShift sentinel dtype hlen
  · intro m pixel a m' hb hok
    rw [updateValues_ok_eq m pixel a m' hok]
    exact updateCore_block0 m pixel a.data hb
  · intro m maskMap maskBits m' hb hok
    rw [applyMask_ok_eq m maskMap maskBits m' hok]
    exact updateCore_block0 m _ _ hb

theorem C4_block0_invariant_witness : Block0Sentinel (updateCore mapA [5] [3]) :=
  C4_block0_invariant.2.2.1 mapA [5] { dtype := DType.i64, data := [3] }
    (updateCore mapA [5] [3]) (by decide) rfl

/-! ### Lookup addressing -/

theorem npGetD_nonneg (l : List Int) (a : Int) (h : 0 ≤ a) :
    npGetD l a = l.getD a.toNat 0 := by
  unfold npGetD
  rw [npIndex_nonneg _ _ h]

/-- C1: a fine pixel whose coarse (coverage) parent is uncovered resolves
into block 0 (the default/overflow block) and `getValuePixel` returns the
sentinel there; the `validMask=True` variant returns `False`; and a
coarse cell is covered exactly when
`covIndexMap[c] + c * cellsPerCoarse >= cellsPerCoarse`. -/
theorem C1_uncovered_lookup (m : HealSparseMap) (p : Nat)
    (_huncov : coverageMask m (p >>> m.bitShift) = false)
    (hzero : offsetOf m (p >>> m.bitShift) = 0)
    (hblock : Block0Sentinel m) :
    getValuePixel m p = m.sentinel ∧
      getValuePixelValidMask m p = false ∧
      0 ≤ lookupAddr m p ∧ lookupAddr m p < (nFinePerCov m : Int) ∧
      (∀ c, coverageMask m c = true ↔
        (nFinePerCov m : Int) ≤ m.covIndexMap.getD c 0 + (c : Int) * (nFinePerCov m : Int)) := by
  obtain ⟨hlen, hsen⟩ := hblock
  have haddr : lookupAddr m p = ((p % 2 ^ m.bitShift : Nat) : Int) := by
    rw [lookupAddr_eq, hzero, zero_add]
  have hloc : p % 2 ^ m.bitShift < nFinePerCov m := localPos_lt p m.bitShift
  have hval : getValuePixel m p = m.sentinel := by
    unfold getValuePixel
    rw [haddr, npGetD_nonneg _ _ (Int.natCast_nonneg _), Int.toNat_natCast]
    exact hsen _ hloc
  refine ⟨hval, ?_, ?_, ?_, ?_⟩
  · unfold getValuePixelValidMask
    rw [hval]
    simp
  · rw [haddr]
    exact Int.natCast_nonneg _
  · rw [haddr]
    exact_mod_cast hloc
  · intro c
    exact coverageMask_iff m c

theorem C1_uncovered_lookup_witness :
    getValuePixel mapA 5 = mapA.sentinel ∧
      getValuePixelValidMask mapA 5 = false ∧
      0 ≤ lookupAddr mapA 5 ∧ lookupAddr mapA 5 < (nFinePerCov mapA : Int) ∧
      (∀ c, coverageMask mapA c = true ↔
        (nFinePerCov mapA : Int) ≤ mapA.covIndexMap.getD c 0 + (c : Int) * (nFinePerCov mapA : Int)) :=
  C1_uncovered_lookup mapA 5 (by decide) (by decide) (by decide)

/-- C10: under the coverage-index encoding invariant, the address
`pixel + covIndexMap[pixel >> bitShift]` of every in-range fine pixel
lies inside `[0, len(sparseMap))`: inside block 0 when the parent is
uncovered, and inside the parent's own block `b` when covered. -/
theorem C10_lookup_in_bounds (m : HealSparseMap) (p : Nat)
    (hp : p < nCovPix m * nFinePerCov m)
    (hcovb : ∀ c < nCovPix m, coverageMask m c = true →
        (nFinePerCov m : Int) ≤ offsetOf m c ∧
        offsetOf m c + (nFinePerCov m : Int) ≤ (m.sparseMap.length : Int) ∧
        offsetOf m c % (nFinePerCov m : Int) = 0)
    (huncb : ∀ c < nCovPix m, coverageMask m c = false → offsetOf m c = 0)
    (hlen : nFinePerCov m ≤ m.sparseMap.length) :
    0 ≤ lookupAddr m p ∧ lookupAddr m p < (m.sparseMap.length : Int) ∧
      (coverageMask m (p >>> m.bitShift) = false →
        lookupAddr m p < (nFinePerCov m : Int)) ∧
      (coverageMask m (p >>> m.bitShift) = true →
        ∃ b : Nat, offsetOf m (p >>> m.bitShift) = (b : Int) * (nFinePerCov m : Int) ∧
          (b : Int) * (nFinePerCov m : Int) ≤ lookupAddr m p ∧
          lookupAddr m p < ((b : Int) + 1) * (nFinePerCov m : Int)) := by
  have hclt : p >>> m.bitShift < nCovPix m := parent_lt_of_lt p (nCovPix m) m.bitShift hp
  have haddr := lookupAddr_eq m p
  have hloc : p % 2 ^ m.bitShift < nFinePerCov m := localPos_lt p m.bitShift
  have hloc' : ((p % 2 ^ m.bitShift : Nat) : Int) < (nFinePerCov m : Int) := by exact_mod_cast hloc
  have hlocpos : (0 : Int) ≤ ((p % 2 ^ m.bitShift : Nat) : Int) := Int.natCast_nonneg _
  cases hcm : coverageMask m (p >>> m.bitShift) with
  | false =>
    have hz := huncb _ hclt hcm
    rw [hz, zero_add] at haddr
    have hlen' : (nFinePerCov m : Int) ≤ (m.sparseMap.length : Int) := by exact_mod_cast hlen
    refine ⟨by omega, by omega, fun _ => by omega, fun hcon => ?_⟩
    simp at hcon
  | true =>
    obtain ⟨h1, h2, h3⟩ := hcovb _ hclt hcm
    have hnfpos : (0 : Int) < (nFinePerCov m : Int) := by
      exact_mod_cast nFinePerCov_pos m
    refine ⟨by omega, by omega, fun hcon => ?_, fun _ => ?_⟩
    · simp at hcon
    · have hq' : offsetOf m (p >>> m.bitShift)
          = offsetOf m (p >>> m.bitShift) / (nFinePerCov m : Int) * (nFinePerCov m : Int) := by
        have hdm := Int.ediv_add_emod (offsetOf m (p >>> m.bitShift)) (nFinePerCov m : Int)
        have hcomm : (nFinePerCov m : Int) * (offsetOf m (p >>> m.bitShift) / (nFinePerCov m : Int))
            = offsetOf m (p >>> m.bitShift) / (nFinePerCov m : Int) * (nFinePerCov m : Int) := by
          ring
        omega
      have hqpos : 0 ≤ offsetOf m (p >>> m.bitShift) / (nFinePerCov m : Int) :=
        Int.ediv_nonneg (by omega) (by omega)
      refine ⟨(offsetOf m (p >>> m.bitShift) / (nFinePerCov m : Int)).toNat, ?_, ?_, ?_⟩
      · rw [Int.toNat_of_nonneg hqpos]
        omega
      · rw [Int.toNat_of_nonneg hqpos]
        omega
      · rw [Int.toNat_of_nonneg hqpos]
        have hexp : (offsetOf m (p >>> m.bitShift) / (nFinePerCov m : Int) + 1) * (nFinePerCov m : Int)
            = offsetOf m (p >>> m.bitShift) / (nFinePerCov m : Int) * (nFinePerCov m : Int)
              + (nFinePerCov m : Int) := by
          ring
        omega

theorem C10_lookup_in_bounds_witness :
    0 ≤ lookupAddr mapA 1 ∧ lookupAddr mapA 1 < (mapA.sparseMap.length : Int) ∧
      (coverageMask mapA (1 >>> mapA.bitShift) = false →
        lookupAddr mapA 1 < (nFinePerCov mapA : Int)) ∧
      (coverageMask mapA (1 >>> mapA.bitShift) = true →
        ∃ b : Nat, offsetOf mapA (1 >>> mapA.bitShift) = (b : Int) * (nFinePerCov mapA : Int) ∧
          (b : Int) * (nFinePerCov mapA : Int) ≤ lookupAddr mapA 1 ∧
          lookupAddr mapA 1 < ((b : Int) + 1) * (nFinePerCov mapA : Int)) :=
  C10_lookup_in_bounds mapA 1 (by decide) (by decide) (by decide) (by decide)

/-! ### Error handling of updateValues -/

/-- C8: `updateValues` fails whenever the values argument is not an
ndarray or its dtype disagrees with the storage dtype, and no mutated map
is produced (the checks run before the mutation body). -/
theorem C8_update_type_error (m : HealSparseMap) (pixel : List Nat) (values : Option NdArray)
    (hbad : values = none ∨ ∃ a, values = some a ∧ a.dtype ≠ m.dtype) :
    (∃ e, updateValues m pixel values = .error e) ∧
      ∀ m', updateValues m pixel values ≠ .ok m' := by
  rcases hbad with hnone | ⟨a, hsome, hdt⟩
  · subst hnone
    exact ⟨⟨"Values are not a numpy ndarray", rfl⟩, fun m' h => by simp [updateValues] at h⟩
  · subst hsome
    constructor
    · refine ⟨"Data-type mismatch between sparseMap and values", ?_⟩
      simp only [updateValues]
      rw [if_neg hdt]
    · intro m' h
      simp only [updateValues] at h
      rw [if_neg hdt] at h
      exact absurd h (by simp)

theorem C8_update_type_error_witness :
    (∃ e, updateValues mapA [0] (some { dtype := DType.f64, data := [1] }) = .error e) ∧
      ∀ m', updateValues mapA [0] (some { dtype := DType.f64, data := [1] }) ≠ .ok m' :=
  C8_update_type_error mapA [0] (some { dtype := DType.f64, data := [1] })
    (Or.inr ⟨{ dtype := DType.f64, data := [1] }, rfl, by decide⟩)

/-! ### Masked arithmetic -/

theorem applyOperation_sentinel (m : HealSparseMap) (func : Int → Int → Int) (other : Int) :
    (applyOperation m func other).sentinel = m.sentinel := rfl

/-- C7 counterexample: on an integer map with sentinel 0 and the valid
value 7 stored at fine pixel 0, adding the constant -8 and then
subtracting the same constant does not recover the original value (the
shifted value falls below the sentinel, so the inverse operation never
touches it again). -/
theorem C7_masked_arithmetic_cex :
    getValuePixelValidMask mapA 0 = true ∧
      getValuePixel (hsSub (hsAdd mapA (-8)) (-8)) 0 = -1 ∧
      getValuePixel mapA 0 = 7 := by
  refine ⟨by decide, by decide, by decide⟩

/-- C7 (amended): an elementwise operator touches exactly the currently
valid slots; adding then subtracting a constant recovers the original
value at every valid slot whose shifted value stays above the sentinel
(for a constant negative enough the shifted slot becomes invalid and the
inverse never reapplies); slots holding the sentinel stay exactly at the
sentinel throughout. -/
theorem C7_masked_arithmetic (m : HealSparseMap) (func : Int → Int → Int) (other : Int)
    (i : Nat) (hi : i < m.sparseMap.length) :
    (¬ m.sparseMap.getD i 0 > m.sentinel →
      (applyOperation m func other).sparseMap.getD i 0 = m.sparseMap.getD i 0) ∧
    (m.sparseMap.getD i 0 > m.sentinel →
      (applyOperation m func other).sparseMap.getD i 0 = func (m.sparseMap.getD i 0) other) ∧
    (∀ c : Int, m.sparseMap.getD i 0 > m.sentinel →
      m.sparseMap.getD i 0 + c > m.sentinel →
      (hsSub (hsAdd m c) c).sparseMap.getD i 0 = m.sparseMap.getD i 0) ∧
    (∀ c : Int, m.sparseMap.getD i 0 = m.sentinel →
      (hsSub (hsAdd m c) c).sparseMap.getD i 0 = m.sentinel) := by
  have hbase := applyOperation_sparse_getD m func other i hi
  refine ⟨fun hinv => ?_, fun hval => ?_, fun c hval hshift => ?_, fun c hsen => ?_⟩
  · rw [hbase, if_neg hinv]
  · rw [hbase, if_pos hval]
  · have hadd : (hsAdd m c).sparseMap.getD i 0 = m.sparseMap.getD i 0 + c := by
      unfold hsAdd
      rw [applyOperation_sparse_getD m _ c i hi, if_pos hval]
    have hi2 : i < (hsAdd m c).sparseMap.length := by
      unfold hsAdd
      rw [applyOperation_sparse_length]
      exact hi
    unfold hsSub
    rw [applyOperation_sparse_getD (hsAdd m c) _ c i hi2, hadd]
    show (if m.sparseMap.getD i 0 + c > (hsAdd m c).sentinel then m.sparseMap.getD i 0 + c - c
        else m.sparseMap.getD i 0 + c) = m.sparseMap.getD i 0
    have hsent : (hsAdd m c).sentinel = m.sentinel := rfl
    rw [hsent, if_pos hshift]
    ring
  · have hadd : (hsAdd m c).sparseMap.getD i 0 = m.sparseMap.getD i 0 := by
      unfold hsAdd
      rw [applyOperation_sparse_getD m _ c i hi, if_neg (by rw [hsen]; exact lt_irrefl _)]
    have hi2 : i < (hsAdd m c).sparseMap.length := by
      unfold hsAdd
      rw [applyOperation_sparse_length]
      exact hi
    unfold hsSub
    rw [applyOperation_sparse_getD (hsAdd m c) _ c i hi2, hadd, hsen]
    have hsent : (hsAdd m c).sentinel = m.sentinel := rfl
    rw [hsent, if_neg (lt_irrefl _)]

theorem C7_masked_arithmetic_witness :
    (¬ mapA.sparseMap.getD 4 0 > mapA.sentinel →
      (applyOperation mapA (fun a b => a + b) 2).sparseMap.getD 4 0 = mapA.sparseMap.getD 4 0) ∧
    (mapA.sparseMap.getD 4 0 > mapA.sentinel →
      (applyOperation mapA (fun a b => a + b) 2).sparseMap.getD 4 0 =
        mapA.sparseMap.getD 4 0 + 2) ∧
    (∀ c : Int, mapA.sparseMap.getD 4 0 > mapA.sentinel →
      mapA.sparseMap.getD 4 0 + c > mapA.sentinel →
      (hsSub (hsAdd mapA c) c).sparseMap.getD 4 0 = mapA.sparseMap.getD 4 0) ∧
    (∀ c : Int, mapA.sparseMap.getD 4 0 = mapA.sentinel →
      (hsSub (hsAdd mapA c) c).sparseMap.getD 4 0 = mapA.sentinel) :=
  C7_masked_arithmetic mapA (fun a b => a + b) 2 4 (by decide)

/-! ### Field projection -/

theorem getD_map_range {α : Type} (f : Nat → α) (d : α) (n i : Nat) (h : i < n) :
    ((List.range n).map f).getD i d = f i := by
  have h1 : i < (List.range n).length := by simpa using h
  have h2 : (List.range n)[i]? = some i := by
    rw [List.getElem?_range h]
  simp [List.getD_eq_getElem?_getD, List.getElem?_map, h2]

/-- C9 counterexample: selecting the primary field with no sentinel
override returns the raw primary column; the row holding the
below-sentinel value -5 (invalid in the primary field) keeps -5 in the
projection instead of being forced to the projection's sentinel 0. -/
theorem C9_getSingle_cex :
    getSingle recA "a" none =
      .ok { covIndexMap := [4], sparseMap := [0, 0, 0, 0, -5, 0, 0, 0],
            bitShift := 2, sentinel := 0, dtype := DType.i64 } ∧
    ¬((-5 : Int) > (0 : Int)) ∧ (-5 : Int) ≠ (0 : Int) :=
  ⟨rfl, by decide, by decide⟩

/-- C9 (amended): field projection through the general path — any
selection other than the primary field with no override, i.e. any
non-primary field (with or without an override sentinel, the latter
succeeding through `checkSentinel`'s dtype default) or the primary field
with an explicit override — shares the coverage index and re-sentinels
by the primary field's validity: a row invalid in the primary field is
forced to the projection's sentinel regardless of the selected field's
raw value, and a valid row keeps the selected field's stored value.  The
exception is selecting the primary field with no override, which returns
the raw primary column unchanged (this agrees whenever invalid rows hold
exactly the sentinel). -/
theorem C9_getSingle (m : HealSparseRec) (key : String) (sentinel : Option Int)
    (col pcol : RecColumn)
    (hcol : getColumn m key = some col) (hpcol : getColumn m m.primary = some pcol)
    (hgen : ¬(key = m.primary ∧ sentinel = none))
    (s : Int) (hcs : checkSentinel col.dtype sentinel = .ok s)
    (m' : HealSparseMap) (hok : getSingle m key sentinel = .ok m') :
    m'.covIndexMap = m.covIndexMap ∧ m'.sentinel = s ∧
      m'.sparseMap.length = col.data.length ∧
      ∀ i < col.data.length,
        m'.sparseMap.getD i 0 =
          if pcol.data.getD i 0 > m.sentinel then col.data.getD i 0 else s := by
  simp only [getSingle, hcol, hcs, hpcol] at hok
  rw [if_neg hgen] at hok
  have hm' := (Except.ok.inj hok).symm
  subst hm'
  refine ⟨rfl, rfl, ?_, ?_⟩
  · show ((List.range col.data.length).map _).length = col.data.length
    simp
  · intro i hi
    show ((List.range col.data.length).map
        (fun i => if pcol.data.getD i 0 > m.sentinel then col.data.getD i 0 else s)).getD i 0 = _
    rw [getD_map_range _ _ _ i hi]

theorem C9_getSingle_witness :
    ({ covIndexMap := [4],
       sparseMap := [UNSEEN, UNSEEN, UNSEEN, UNSEEN, UNSEEN, UNSEEN, UNSEEN, UNSEEN],
       bitShift := 2, sentinel := UNSEEN,
       dtype := DType.f64 } : HealSparseMap).covIndexMap = recB.covIndexMap ∧
    ({ covIndexMap := [4],
       sparseMap := [UNSEEN, UNSEEN, UNSEEN, UNSEEN, UNSEEN, UNSEEN, UNSEEN, UNSEEN],
       bitShift := 2, sentinel := UNSEEN,
       dtype := DType.f64 } : HealSparseMap).sentinel = UNSEEN ∧
    ({ covIndexMap := [4],
       sparseMap := [UNSEEN, UNSEEN, UNSEEN, UNSEEN, UNSEEN, UNSEEN, UNSEEN, UNSEEN],
       bitShift := 2, sentinel := UNSEEN,
       dtype := DType.f64 } : HealSparseMap).sparseMap.length =
      ([0, 0, 0, 0, 9, 0, 0, 0] : List Int).length ∧
    ∀ i < ([0, 0, 0, 0, 9, 0, 0, 0] : List Int).length,
      ({ covIndexMap := [4],
         sparseMap := [UNSEEN, UNSEEN, UNSEEN, UNSEEN, UNSEEN, UNSEEN, UNSEEN, UNSEEN],
         bitShift := 2, sentinel := UNSEEN,
         dtype := DType.f64 } : HealSparseMap).sparseMap.getD i 0 =
        if ([0, 0, 0, 0, -5, 0, 0, 0] : List Int).getD i 0 > recB.sentinel
        then ([0, 0, 0, 0, 9, 0, 0, 0] : List Int).getD i 0 else UNSEEN :=
  C9_getSingle recB "b" none
    { name := "b", dtype := DType.f64, data := [0, 0, 0, 0, 9, 0, 0, 0] }
    { name := "a", dtype := DType.i64, data := [0, 0, 0, 0, -5, 0, 0, 0] }
    rfl rfl (by decide) UNSEEN rfl
    { covIndexMap := [4],
      sparseMap := [UNSEEN, UNSEEN, UNSEEN, UNSEEN, UNSEEN, UNSEEN, UNSEEN, UNSEEN],
      bitShift := 2, sentinel := UNSEEN, dtype := DType.f64 } rfl

/-! ### Degrade -/

theorem foldl_max_comm (t : List Int) (v b : Int) :
    t.foldl max (max v b) = max v (t.foldl max b) := by
  induction t generalizing b with
  | nil => rfl
  | cons c t ih =>
    simp only [List.foldl_cons]
    rw [max_assoc, ih (max b c)]

theorem max?_cons_eq (v : Int) (l : List Int) :
    (v :: l).max? = some (match l.max? with | none => v | some w => max v w) := by
  cases l with
  | nil => rfl
  | cons b t =>
    show some (t.foldl max (max v b)) = some (max v (t.foldl max b))
    rw [foldl_max_comm]

/-- The NaN-skipping max over the sentinel-masked list agrees with the
maximum over the entries different from the sentinel. -/
theorem nanmax_filter (l : List Int) (s : Int) :
    nanmax (l.map (fun v => if v = s then none else some v)) =
      (l.filter (fun v => decide (v ≠ s))).max? := by
  induction l with
  | nil => rfl
  | cons v rest ih =>
    by_cases hv : v = s
    · have hmap : List.map (fun w => if w = s then none else some w) (v :: rest)
          = none :: List.map (fun w => if w = s then none else some w) rest := by
        simp [hv]
      have hfil : List.filter (fun w => decide (w ≠ s)) (v :: rest)
          = List.filter (fun w => decide (w ≠ s)) rest := by
        simp [hv]
      rw [hmap, hfil]
      show nanmax (List.map (fun w => if w = s then none else some w) rest) = _
      exact ih
    · have hmap : List.map (fun w => if w = s then none else some w) (v :: rest)
          = some v :: List.map (fun w => if w = s then none else some w) rest := by
        simp [hv]
      have hfil : List.filter (fun w => decide (w ≠ s)) (v :: rest)
          = v :: List.filter (fun w => decide (w ≠ s)) rest := by
        simp [hv]
      rw [hmap, hfil]
      show (match nanmax (List.map (fun w => if w = s then none else some w) rest) with
        | none => some v | some w => some (max v w)) = _
      rw [ih, max?_cons_eq]
      cases (rest.filter (fun w => decide (w ≠ s))).max? with
      | none => rfl
      | some w => rfl

theorem getD_map_gen {α β : Type} (f : α → β) (l : List α) (dα : α) (dβ : β) (i : Nat)
    (h : i < l.length) : (l.map f).getD i dβ = f (l.getD i dα) := by
  have he : l[i]? = some l[i] := List.getElem?_eq_getElem h
  simp [List.getD_eq_getElem?_getD, List.getElem?_map, he]

theorem reduce_array_max_getD (aux : List (Option Int)) (r q : Nat)
    (hq : q < aux.length / r) :
    (reduce_array_max aux r).getD q none = nanmax ((aux.drop (q * r)).take r) := by
  unfold reduce_array_max
  exact getD_map_range _ _ _ q hq

/-- C5 counterexample: `mapB` (sentinel 0) stores the below-sentinel value
-5 in a fine-cell group whose other cells equal the sentinel, so every
cell of the group is invalid; degrading with `reduction='max'` still
yields -5 for that group instead of the sentinel, because the source
excludes only cells *equal* to the sentinel from the reduction. -/
theorem C5_degrade_max_cex :
    degradeMax mapB 0 =
      .ok { covIndexMap := [1], sparseMap := [UNSEEN, -5], bitShift := 0,
            sentinel := UNSEEN, dtype := DType.f64 } ∧
    (∀ v ∈ [(-5 : Int), 0, 0, 0], ¬(v > mapB.sentinel)) ∧
    (-5 : Int) ≠ UNSEEN :=
  ⟨rfl, by decide, by decide⟩

/-- C5 (amended): `degrade` with `reduction='max'` reduces each run of
`r = oldCellsPerCoarse / newCellsPerCoarse` consecutive fine slots to the
maximum over the slots *not equal to* the sentinel (for reachable maps
whose invalid cells all hold the sentinel this coincides with the valid
cells); a run whose slots all equal the sentinel degrades to the new
sentinel `UNSEEN`; below-sentinel cells, although invalid, do enter the
reduction. -/
theorem C5_degrade_max (m : HealSparseMap) (newBitShift : Nat)
    (hbs : ¬ m.bitShift < newBitShift)
    (m' : HealSparseMap) (hok : degradeMax m newBitShift = .ok m')
    (q : Nat) (hq : q < m.sparseMap.length / 2 ^ (m.bitShift - newBitShift)) :
    m'.sentinel = UNSEEN ∧
      m'.sparseMap.getD q 0 =
        match ((m.sparseMap.drop (q * 2 ^ (m.bitShift - newBitShift))).take
            (2 ^ (m.bitShift - newBitShift))).filter (fun v => decide (v ≠ m.sentinel)) |>.max? with
        | some mx => mx
        | none => UNSEEN := by
  simp only [degradeMax] at hok
  rw [if_neg hbs] at hok
  have hm' := (Except.ok.inj hok).symm
  subst hm'
  refine ⟨rfl, ?_⟩
  show ((reduce_array_max (m.sparseMap.map (fun v => if v = m.sentinel then none else some v))
      (2 ^ (m.bitShift - newBitShift))).map (fun o => o.getD UNSEEN)).getD q 0 = _
  have hq' : q < (reduce_array_max
      (m.sparseMap.map (fun v => if v = m.sentinel then none else some v))
      (2 ^ (m.bitShift - newBitShift))).length := by
    unfold reduce_array_max
    simp only [List.length_map, List.length_range]
    simpa using hq
  rw [getD_map_gen _ _ none 0 q hq']
  rw [reduce_array_max_getD _ _ q (by simpa using hq)]
  rw [← List.map_drop, ← List.map_take, nanmax_filter]
  cases ((m.sparseMap.drop (q * 2 ^ (m.bitShift - newBitShift))).take
      (2 ^ (m.bitShift - newBitShift))).filter (fun v => decide (v ≠ m.sentinel)) |>.max? with
  | none => rfl
  | some w => rfl

theorem C5_degrade_max_witness :
    (({ covIndexMap := [1], sparseMap := [UNSEEN, -5], bitShift := 0,
        sentinel := UNSEEN, dtype := DType.f64 } : HealSparseMap)).sentinel = UNSEEN ∧
      (({ covIndexMap := [1], sparseMap := [UNSEEN, -5], bitShift := 0,
          sentinel := UNSEEN, dtype := DType.f64 } : HealSparseMap)).sparseMap.getD 1 0 =
        match ((mapB.sparseMap.drop (1 * 2 ^ (mapB.bitShift - 0))).take
            (2 ^ (mapB.bitShift - 0))).filter (fun v => decide (v ≠ mapB.sentinel)) |>.max? with
        | some mx => mx
        | none => UNSEEN :=
  C5_degrade_max mapB 0 (by decide)
    { covIndexMap := [1], sparseMap := [UNSEEN, -5], bitShift := 0,
      sentinel := UNSEEN, dtype := DType.f64 } rfl 1 (by decide)

/-! ### applyMask -/

theorem parent_of_block (c j bs : Nat) (hj : j < 2 ^ bs) : (c * 2 ^ bs + j) >>> bs = c := by
  rw [Nat.shiftRight_eq_div_pow]
  rw [Nat.mul_comm c (2 ^ bs)]
  rw [Nat.mul_add_div (Nat.two_pow_pos bs), Nat.div_eq_of_lt hj]
  rfl

theorem mem_validPixels (m : HealSparseMap) (p : Nat) :
    p ∈ validPixels m ↔
      p >>> m.bitShift < nCovPix m ∧ coverageMask m (p >>> m.bitShift) = true ∧
        getValuePixelValidMask m p = true := by
  unfold validPixels
  rw [List.mem_filter]
  constructor
  · rintro ⟨hmem, hvalid⟩
    rw [List.mem_flatMap] at hmem
    obtain ⟨c, hc, hpmem⟩ := hmem
    rw [List.mem_filter, List.mem_range] at hc
    rw [List.mem_map] at hpmem
    obtain ⟨j, hj, hpe⟩ := hpmem
    rw [List.mem_range] at hj
    have hpar : p >>> m.bitShift = c := by
      rw [← hpe, Nat.shiftLeft_eq]
      exact parent_of_block c j m.bitShift hj
    rw [hpar]
    exact ⟨hc.1, hc.2, hvalid⟩
  · rintro ⟨hlt, hcov, hval⟩
    refine ⟨?_, hval⟩
    rw [List.mem_flatMap]
    refine ⟨p >>> m.bitShift, ?_, ?_⟩
    · rw [List.mem_filter, List.mem_range]
      exact ⟨hlt, hcov⟩
    · rw [List.mem_map]
      refine ⟨p % 2 ^ m.bitShift, ?_, ?_⟩
      · rw [List.mem_range]
        exact localPos_lt p m.bitShift
      · rw [Nat.shiftLeft_eq]
        exact (pixel_decomp p m.bitShift).symm

theorem uncovered_getValuePixel (m : HealSparseMap) (p : Nat)
    (hzero : offsetOf m (p >>> m.bitShift) = 0)
    (hsen : ∀ i < nFinePerCov m, m.sparseMap.getD i 0 = m.sentinel) :
    getValuePixel m p = m.sentinel := by
  have haddr : lookupAddr m p = ((p % 2 ^ m.bitShift : Nat) : Int) := by
    rw [lookupAddr_eq, hzero, zero_add]
  unfold getValuePixel
  rw [haddr, npGetD_nonneg _ _ (Int.natCast_nonneg _), Int.toNat_natCast]
  exact hsen _ (localPos_lt p m.bitShift)

theorem getValuePixel_toNat (m : HealSparseMap) (p : Nat) (h : 0 ≤ lookupAddr m p) :
    getValuePixel m p = m.sparseMap.getD (lookupAddr m p).toNat 0 := by
  unfold getValuePixel
  exact npGetD_nonneg _ _ h

theorem lastAssign_some_mem (ps : List (Int × Int)) (j : Int) (v : Int)
    (h : lastAssign ps j = some v) : ∃ p ∈ ps, p.1 = j ∧ p.2 = v := by
  induction ps with
  | nil => exact absurd h (by simp [lastAssign])
  | cons p rest ih =>
    rw [lastAssign_cons] at h
    cases hla : lastAssign rest j with
    | some w =>
      rw [hla] at h
      have hwv : w = v := Option.some.inj h
      obtain ⟨q, hq, h1, h2⟩ := ih (by rw [hla, hwv])
      exact ⟨q, List.mem_cons_of_mem p hq, h1, h2⟩
    | none =>
      rw [hla] at h
      by_cases hpj : p.1 = j
      · rw [if_pos hpj] at h
        exact ⟨p, List.mem_cons_self p rest, hpj, Option.some.inj h⟩
      · rw [if_neg hpj] at h
        exact absurd h (by simp)

theorem lastAssign_isSome_of_mem (ps : List (Int × Int)) (j : Int)
    (h : ∃ p ∈ ps, p.1 = j) : ∃ v, lastAssign ps j = some v := by
  induction ps with
  | nil =>
    obtain ⟨p, hp, _⟩ := h
    exact absurd hp (by simp)
  | cons p rest ih =>
    rw [lastAssign_cons]
    cases hla : lastAssign rest j with
    | some w => exact ⟨w, rfl⟩
    | none =>
      obtain ⟨q, hq, hqj⟩ := h
      rcases List.mem_cons.mp hq with hqp | hqr
      · rw [if_pos (hqp ▸ hqj)]
        exact ⟨p.2, rfl⟩
      · obtain ⟨v, hv⟩ := ih ⟨q, hqr, hqj⟩
        rw [hla] at hv
        exact absurd hv (by simp)

theorem zip_replicate_eq_map {α β : Type} (l : List α) (v : β) :
    l.zip (List.replicate l.length v) = l.map (fun x => (x, v)) := by
  induction l with
  | nil => rfl
  | cons x rest ih =>
    show (x :: rest).zip (List.replicate (rest.length + 1) v) = _
    rw [List.replicate_succ]
    show (x, v) :: rest.zip (List.replicate rest.length v) = _
    rw [ih]
    rfl

theorem ucOutCov_eq_nil (m : HealSparseMap) (pixel : List Nat) (values : List Int)
    (h : ∀ p ∈ pixel, coverageMask m (p >>> m.bitShift) = true) :
    ucOutCov m (ucPairs pixel values) = [] := by
  unfold ucOutCov ucPairs
  rw [List.filter_eq_nil_iff]
  intro q hq
  have hq1 : q.1 ∈ pixel := (List.of_mem_zip hq).1
  simp [h q.1 hq1]

theorem updateCore_all_covered (m : HealSparseMap) (pixel : List Nat) (values : List Int)
    (h : ucOutCov m (ucPairs pixel values) = []) :
    updateCore m pixel values = { m with sparseMap := ucS1 m (ucPairs pixel values) } := by
  simp only [updateCore]
  rw [if_pos (by rw [h]; rfl)]

theorem aligned_eq (o1 o2 nf : Int) (hnf : 0 < nf) (h1 : o1 % nf = 0) (h2 : o2 % nf = 0)
    (hlt : o1 - o2 < nf) (hgt : o2 - o1 < nf) : o1 = o2 := by
  obtain ⟨a, ha⟩ : ∃ a, o1 = nf * a := ⟨o1 / nf, by have := Int.ediv_add_emod o1 nf; omega⟩
  obtain ⟨b, hb⟩ : ∃ b, o2 = nf * b := ⟨o2 / nf, by have := Int.ediv_add_emod o2 nf; omega⟩
  subst ha
  subst hb
  have h5 : nf * (a - b) < nf * 1 := by rw [mul_sub, mul_one]; omega
  have h6 : nf * (b - a) < nf * 1 := by rw [mul_sub, mul_one]; omega
  have h7 : a - b < 1 := lt_of_mul_lt_mul_left h5 (le_of_lt hnf)
  have h8 : b - a < 1 := lt_of_mul_lt_mul_left h6 (le_of_lt hnf)
  have hab : a = b := by omega
  rw [hab]

/-- Under the invariants, the lookup address is injective on fine pixels
with covered parents: distinct covered blocks do not alias. -/
theorem lookupAddr_inj (m : HealSparseMap) (hwf : WellFormed m) (p q : Nat)
    (hp : p >>> m.bitShift < nCovPix m) (hq : q >>> m.bitShift < nCovPix m)
    (hcp : coverageMask m (p >>> m.bitShift) = true)
    (hcq : coverageMask m (q >>> m.bitShift) = true)
    (heq : lookupAddr m p = lookupAddr m q) : p = q := by
  obtain ⟨_, _, _, hcovb, _, hinj⟩ := hwf
  obtain ⟨h1p, h2p, h3p⟩ := hcovb _ hp hcp
  obtain ⟨h1q, h2q, h3q⟩ := hcovb _ hq hcq
  rw [lookupAddr_eq, lookupAddr_eq] at heq
  have hlp : ((p % 2 ^ m.bitShift : Nat) : Int) < (nFinePerCov m : Int) := by
    exact_mod_cast localPos_lt p m.bitShift
  have hlq : ((q % 2 ^ m.bitShift : Nat) : Int) < (nFinePerCov m : Int) := by
    exact_mod_cast localPos_lt q m.bitShift
  have hlpn : (0 : Int) ≤ ((p % 2 ^ m.bitShift : Nat) : Int) := Int.natCast_nonneg _
  have hlqn : (0 : Int) ≤ ((q % 2 ^ m.bitShift : Nat) : Int) := Int.natCast_nonneg _
  have hnf : (0 : Int) < (nFinePerCov m : Int) := by exact_mod_cast nFinePerCov_pos m
  have ho : offsetOf m (p >>> m.bitShift) = offsetOf m (q >>> m.bitShift) :=
    aligned_eq _ _ _ hnf h3p h3q (by omega) (by omega)
  have hc : p >>> m.bitShift = q >>> m.bitShift := hinj _ hp _ hq hcp hcq ho
  have hl : ((p % 2 ^ m.bitShift : Nat) : Int) = ((q % 2 ^ m.bitShift : Nat) : Int) := by
    omega
  have hleq : p % 2 ^ m.bitShift = q % 2 ^ m.bitShift := by exact_mod_cast hl
  have hdp := pixel_decomp p m.bitShift
  have hdq := pixel_decomp q m.bitShift
  rw [hc, hleq] at hdp
  omega

/-- C6 counterexample: `maskA` holds the nonzero (negative) mask value -1
at fine pixel 0, where `mapA` is valid with value 7; `applyMask` with
`maskBits` unset leaves the cell untouched because the source selects
only mask values `> 0`, while the claim demands that any nonzero mask
value invalidate the cell. -/
theorem C6_applyMask_cex :
    applyMask mapA maskA none = .ok mapA ∧
      getValuePixel maskA 0 = -1 ∧ (-1 : Int) ≠ 0 ∧
      getValuePixel mapA 0 = 7 ∧ getValuePixelValidMask mapA 0 = true :=
  ⟨rfl, by decide, by decide, by decide, by decide⟩

/-- C6 (amended): `applyMask` invalidates exactly the currently-valid
fine cells selected by the mask, where selection means a *positive* mask
value when `maskBits` is unset, and `(maskValue & maskBits) > 0` when it
is set; every invalidated cell is reset to the sentinel and every other
cell is unchanged. -/
theorem C6_applyMask (m maskMap : HealSparseMap) (maskBits : Option Int)
    (hwf : WellFormed m) (m' : HealSparseMap)
    (hok : applyMask m maskMap maskBits = .ok m')
    (p : Nat) (hp : p < nCovPix m * nFinePerCov m) :
    (getValuePixel m' p =
      if getValuePixelValidMask m p = true ∧ maskSelect maskMap maskBits p = true
      then m.sentinel else getValuePixel m p) ∧
    (maskBits = none → (maskSelect maskMap maskBits p = true ↔ getValuePixel maskMap p > 0)) ∧
    (∀ b, maskBits = some b →
      (maskSelect maskMap maskBits p = true ↔ Int.land (getValuePixel maskMap p) b > 0)) := by
  have hlen := hwf.2.1
  have hsen := hwf.2.2.1
  have hcovb := hwf.2.2.2.1
  have huncb := hwf.2.2.2.2.1
  have hplt : p >>> m.bitShift < nCovPix m := parent_lt_of_lt p (nCovPix m) m.bitShift hp
  refine ⟨?_, ?_, ?_⟩
  case refine_2 =>
    intro hb
    subst hb
    unfold maskSelect
    exact decide_eq_true_iff
  case refine_3 =>
    intro b hb
    subst hb
    unfold maskSelect
    exact decide_eq_true_iff
  have hm' := applyMask_ok_eq m maskMap maskBits m' hok
  have hbadcov : ∀ r ∈ (validPixels m).filter (fun r => maskSelect maskMap maskBits r),
      coverageMask m (r >>> m.bitShift) = true := by
    intro r hr
    have hr' : r ∈ validPixels m := List.mem_of_mem_filter hr
    exact ((mem_validPixels m r).mp hr').2.1
  have hnil := ucOutCov_eq_nil m ((validPixels m).filter (fun r => maskSelect maskMap maskBits r))
    (List.replicate ((validPixels m).filter (fun r => maskSelect maskMap maskBits r)).length
      m.sentinel) hbadcov
  rw [hm', updateCore_all_covered m _ _ hnil]
  have hpairs : ucPairs ((validPixels m).filter (fun r => maskSelect maskMap maskBits r))
      (List.replicate ((validPixels m).filter (fun r => maskSelect maskMap maskBits r)).length
        m.sentinel)
      = ((validPixels m).filter (fun r => maskSelect maskMap maskBits r)).map
          (fun x => (x, m.sentinel)) := by
    unfold ucPairs
    exact zip_replicate_eq_map _ m.sentinel
  have hin : ucInCov m (((validPixels m).filter (fun r => maskSelect maskMap maskBits r)).map
      (fun x => (x, m.sentinel)))
      = ((validPixels m).filter (fun r => maskSelect maskMap maskBits r)).map
          (fun x => (x, m.sentinel)) := by
    unfold ucInCov
    rw [List.filter_eq_self]
    intro q hq
    obtain ⟨x, hx, he⟩ := List.mem_map.mp hq
    rw [← he]
    exact hbadcov x hx
  have hs1 : ucS1 m (ucPairs ((validPixels m).filter (fun r => maskSelect maskMap maskBits r))
      (List.replicate ((validPixels m).filter (fun r => maskSelect maskMap maskBits r)).length
        m.sentinel))
      = writeSeq m.sparseMap
          (((validPixels m).filter (fun r => maskSelect maskMap maskBits r)).map
            (fun x => (lookupAddr m x, m.sentinel))) := by
    unfold ucS1
    rw [hpairs, hin, List.map_map]
    rfl
  have hgoal : getValuePixel
      { m with sparseMap := ucS1 m (ucPairs
          ((validPixels m).filter (fun r => maskSelect maskMap maskBits r))
          (List.replicate ((validPixels m).filter (fun r => maskSelect maskMap maskBits r)).length
            m.sentinel)) } p
      = npGetD (writeSeq m.sparseMap
          (((validPixels m).filter (fun r => maskSelect maskMap maskBits r)).map
            (fun x => (lookupAddr m x, m.sentinel)))) (lookupAddr m p) := by
    unfold getValuePixel
    rw [hs1]
    rfl
  rw [hgoal]
  have hwpos : ∀ pr ∈ ((validPixels m).filter (fun r => maskSelect maskMap maskBits r)).map
      (fun x => (lookupAddr m x, m.sentinel)), 0 ≤ pr.1 := by
    intro pr hpr
    obtain ⟨x, hx, he⟩ := List.mem_map.mp hpr
    have h1 := nf_le_lookupAddr m x (hbadcov x hx)
    have h2 : (0 : Int) ≤ (nFinePerCov m : Int) := Int.natCast_nonneg _
    rw [← he]
    simp only
    omega
  by_cases hcovp : coverageMask m (p >>> m.bitShift) = true
  · -- covered parent
    obtain ⟨h1, h2, h3⟩ := hcovb _ hplt hcovp
    have haddr_eq := lookupAddr_eq m p
    have hlocp : ((p % 2 ^ m.bitShift : Nat) : Int) < (nFinePerCov m : Int) := by
      exact_mod_cast localPos_lt p m.bitShift
    have hlocn : (0 : Int) ≤ ((p % 2 ^ m.bitShift : Nat) : Int) := Int.natCast_nonneg _
    have haddr_nonneg : 0 ≤ lookupAddr m p := by omega
    have haddr_lt : lookupAddr m p < (m.sparseMap.length : Int) := by omega
    have htn : (lookupAddr m p).toNat < m.sparseMap.length := by omega
    have hcast : (((lookupAddr m p).toNat : Nat) : Int) = lookupAddr m p :=
      Int.toNat_of_nonneg haddr_nonneg
    rw [npGetD_nonneg _ _ haddr_nonneg]
    have hws : (writeSeq m.sparseMap
        (((validPixels m).filter (fun r => maskSelect maskMap maskBits r)).map
          (fun x => (lookupAddr m x, m.sentinel)))).length = m.sparseMap.length :=
      writeSeq_length _ _
    rw [writeSeq_getD _ _ _ htn hwpos]
    have hvm : getValuePixel m p = m.sparseMap.getD (lookupAddr m p).toNat 0 :=
      getValuePixel_toNat m p haddr_nonneg
    have hmembad : p ∈ (validPixels m).filter (fun r => maskSelect maskMap maskBits r) ↔
        (getValuePixelValidMask m p = true ∧ maskSelect maskMap maskBits p = true) := by
      rw [List.mem_filter, mem_validPixels]
      constructor
      · rintro ⟨⟨_, _, hv⟩, hs⟩
        exact ⟨hv, hs⟩
      · rintro ⟨hv, hs⟩
        exact ⟨⟨hplt, hcovp, hv⟩, hs⟩
    by_cases hpb : p ∈ (validPixels m).filter (fun r => maskSelect maskMap maskBits r)
    · rw [if_pos (hmembad.mp hpb)]
      obtain ⟨v, hv⟩ := lastAssign_isSome_of_mem
        (((validPixels m).filter (fun r => maskSelect maskMap maskBits r)).map
          (fun x => (lookupAddr m x, m.sentinel))) (((lookupAddr m p).toNat : Nat) : Int)
        ⟨(lookupAddr m p, m.sentinel), List.mem_map.mpr ⟨p, hpb, rfl⟩, by rw [hcast]⟩
      rw [hv]
      obtain ⟨pr, hpr, _, hprv⟩ := lastAssign_some_mem _ _ _ hv
      obtain ⟨x, hx, hxe⟩ := List.mem_map.mp hpr
      have hvs : v = m.sentinel := by
        rw [← hprv, ← hxe]
      rw [hvs]
      rfl
    · rw [if_neg (fun hc => hpb (hmembad.mpr hc))]
      rw [lastAssign_eq_none _ _ ?hne]
      case hne =>
        intro pr hpr hprj
        obtain ⟨x, hx, hxe⟩ := List.mem_map.mp hpr
        have hxadd : lookupAddr m x = lookupAddr m p := by
          have : pr.1 = lookupAddr m x := by rw [← hxe]
          rw [this, hcast] at hprj
          exact hprj
        have hxv : x ∈ validPixels m := List.mem_of_mem_filter hx
        have hxc := ((mem_validPixels m x).mp hxv).2.1
        have hxlt := ((mem_validPixels m x).mp hxv).1
        have hxp : x = p := lookupAddr_inj m hwf x p hxlt hplt hxc hcovp hxadd
        exact hpb (hxp ▸ hx)
      show m.sparseMap.getD (lookupAddr m p).toNat 0 = getValuePixel m p
      exact hvm.symm
  · -- uncovered parent: the pixel is invalid, nothing selects it, and
    -- the writes stay out of block 0
    have hcf : coverageMask m (p >>> m.bitShift) = false := by
      revert hcovp
      cases coverageMask m (p >>> m.bitShift) <;> simp
    have hzero := huncb _ hplt hcf
    have haddr : lookupAddr m p = ((p % 2 ^ m.bitShift : Nat) : Int) := by
      rw [lookupAddr_eq, hzero, zero_add]
    have hvm : getValuePixel m p = m.sentinel :=
      uncovered_getValuePixel m p hzero hsen
    have hcond : ¬(getValuePixelValidMask m p = true ∧ maskSelect maskMap maskBits p = true) := by
      rintro ⟨hv, _⟩
      unfold getValuePixelValidMask at hv
      rw [hvm] at hv
      simp at hv
    rw [if_neg hcond]
    have hlloc : p % 2 ^ m.bitShift < nFinePerCov m := localPos_lt p m.bitShift
    have hlt2 : p % 2 ^ m.bitShift < m.sparseMap.length := lt_of_lt_of_le hlloc hlen
    rw [haddr, npGetD_nonneg _ _ (Int.natCast_nonneg _), Int.toNat_natCast]
    rw [writeSeq_getD _ _ _ hlt2 hwpos]
    rw [lastAssign_eq_none _ _ ?hne2]
    case hne2 =>
      intro pr hpr hprj
      obtain ⟨x, hx, hxe⟩ := List.mem_map.mp hpr
      have h1 : (nFinePerCov m : Int) ≤ pr.1 := by
        rw [← hxe]
        exact nf_le_lookupAddr m x (hbadcov x hx)
      have h2 : ((p % 2 ^ m.bitShift : Nat) : Int) < (nFinePerCov m : Int) := by
        exact_mod_cast hlloc
      rw [hprj] at h1
      omega
    show m.sparseMap.getD (p % 2 ^ m.bitShift) 0 = getValuePixel m p
    rw [hvm]
    exact hsen _ hlloc

theorem C6_applyMask_witness :
    (getValuePixel mapA 0 =
      if getValuePixelValidMask mapA 0 = true ∧ maskSelect maskA none 0 = true
      then mapA.sentinel else getValuePixel mapA 0) ∧
    ((none : Option Int) = none →
      (maskSelect maskA none 0 = true ↔ getValuePixel maskA 0 > 0)) ∧
    (∀ b, (none : Option Int) = some b →
      (maskSelect maskA none 0 = true ↔ Int.land (getValuePixel maskA 0) b > 0)) :=
  C6_applyMask mapA maskA none (by decide) mapA rfl 0 (by decide)

/-! ### Idempotence of updates -/

theorem list_eq_of_getD (l1 l2 : List Int) (hlen : l1.length = l2.length)
    (h : ∀ i < l1.length, l1.getD i 0 = l2.getD i 0) : l1 = l2 := by
  apply List.ext_getElem hlen
  intro i hi1 hi2
  have hd := h i hi1
  rw [List.getD_eq_getElem?_getD, List.getD_eq_getElem?_getD,
    List.getElem?_eq_getElem hi1, List.getElem?_eq_getElem hi2] at hd
  exact hd

/-- Replaying an identical write sequence over its own result changes
nothing: each position already holds the last value assigned to it. -/
theorem writeSeq_idem (l : List Int) (ps : List (Int × Int))
    (hpos : ∀ p ∈ ps, 0 ≤ p.1) :
    writeSeq (writeSeq l ps) ps = writeSeq l ps := by
  apply list_eq_of_getD
  · rw [writeSeq_length, writeSeq_length]
  · intro i hi
    rw [writeSeq_length, writeSeq_length] at hi
    have h1 := writeSeq_getD ps (writeSeq l ps) i (by rw [writeSeq_length]; exact hi) hpos
    have h2 := writeSeq_getD ps l i hi hpos
    rw [h1, h2]
    cases lastAssign ps (i : Int) with
    | none => rfl
    | some v => rfl

/-- Dropping the pairs that a predicate rejects does not change the last
assignment at `j`, provided rejected pairs never address `j` and accepted
pairs keep their address. -/
theorem lastAssign_map_filter (pairs : List (Nat × Int)) (P : Nat × Int → Bool)
    (g1 g2 : Nat × Int → Int) (j : Int)
    (hagree : ∀ q ∈ pairs, P q = true → g2 q = g1 q)
    (hmiss : ∀ q ∈ pairs, P q = false → g2 q ≠ j) :
    lastAssign (pairs.map (fun q => (g2 q, q.2))) j
      = lastAssign ((pairs.filter P).map (fun q => (g1 q, q.2))) j := by
  induction pairs with
  | nil => rfl
  | cons q rest ih =>
    have ih' := ih (fun r hr => hagree r (List.mem_cons_of_mem q hr))
      (fun r hr => hmiss r (List.mem_cons_of_mem q hr))
    by_cases hP : P q = true
    · rw [List.map_cons, List.filter_cons, if_pos hP, List.map_cons]
      rw [lastAssign_cons, lastAssign_cons, ih']
      cases lastAssign ((rest.filter P).map (fun r => (g1 r, r.2))) j with
      | some v => rfl
      | none =>
        show (if g2 q = j then some q.2 else none) = (if g1 q = j then some q.2 else none)
        rw [hagree q (List.mem_cons_self q rest) hP]
    · have hPf : P q = false := by
        revert hP
        cases P q <;> simp
      rw [List.map_cons, List.filter_cons, if_neg (by rw [hPf]; exact Bool.false_ne_true)]
      rw [lastAssign_cons, ih']
      cases lastAssign ((rest.filter P).map (fun r => (g1 r, r.2))) j with
      | some v => rfl
      | none =>
        show (if g2 q = j then some q.2 else none) = none
        rw [if_neg (hmiss q (List.mem_cons_self q rest) hPf)]

/-- Shifting every address and the probe by the same amount preserves the
last assignment. -/
theorem lastAssign_shift (l : List (Nat × Int)) (g : Nat × Int → Int) (d j : Int) :
    lastAssign (l.map (fun q => (g q, q.2))) j
      = lastAssign (l.map (fun q => (g q - d, q.2))) (j - d) := by
  induction l with
  | nil => rfl
  | cons q rest ih =>
    rw [List.map_cons, List.map_cons, lastAssign_cons, lastAssign_cons, ih]
    cases lastAssign (rest.map (fun q => (g q - d, q.2))) (j - d) with
    | some v => rfl
    | none =>
      show (if g q = j then some q.2 else none) = (if g q - d = j - d then some q.2 else none)
      by_cases hgj : g q = j
      · rw [if_pos hgj, if_pos (by omega)]
      · rw [if_neg hgj, if_neg (by omega)]

theorem updateCore_growth_eq (m : HealSparseMap) (pixel : List Nat) (values : List Int)
    (h : ucOutCov m (ucPairs pixel values) ≠ []) :
    updateCore m pixel values =
      { m with covIndexMap := ucTemp m (ucPairs pixel values),
               sparseMap := ucS1 m (ucPairs pixel values) ++ ucAppend m (ucPairs pixel values) } := by
  simp only [updateCore]
  rw [if_neg (by simpa [List.isEmpty_iff] using h)]

theorem ucAppend_length (m : HealSparseMap) (pairs : List (Nat × Int)) :
    (ucAppend m pairs).length = (ucNewCovPix m pairs).length * nFinePerCov m := by
  unfold ucAppend
  rw [writeSeq_length, List.length_replicate]

theorem mem_ucOutCov_mem_pairs (m : HealSparseMap) (pairs : List (Nat × Int)) (q : Nat × Int)
    (hq : q ∈ ucOutCov m pairs) : q ∈ pairs := by
  unfold ucOutCov at hq
  exact List.mem_of_mem_filter hq

/-- Address bounds for the out-of-coverage writes: through the rebuilt
index an out-of-coverage pair lands inside the appended region
`[len, len + newCovPix.size * nFinePerCov)`. -/
theorem ucOut_addr_bounds (m : HealSparseMap) (pixel : List Nat) (values : List Int)
    (hrange : ∀ p ∈ pixel, p >>> m.bitShift < nCovPix m)
    (q : Nat × Int) (hq : q ∈ ucOutCov m (ucPairs pixel values)) :
    (m.sparseMap.length : Int) ≤
        (q.1 : Int) + (ucTemp m (ucPairs pixel values)).getD (q.1 >>> m.bitShift) 0 ∧
      (q.1 : Int) + (ucTemp m (ucPairs pixel values)).getD (q.1 >>> m.bitShift) 0 <
        (m.sparseMap.length : Int)
          + ((ucNewCovPix m (ucPairs pixel values)).length : Int) * (nFinePerCov m : Int) := by
  have hqp : q ∈ ucPairs pixel values := mem_ucOutCov_mem_pairs m _ q hq
  have hq1 : q.1 ∈ pixel := by
    unfold ucPairs at hqp
    exact (List.of_mem_zip hqp).1
  have hclt : q.1 >>> m.bitShift < nCovPix m := hrange q.1 hq1
  have hcm : q.1 >>> m.bitShift ∈ ucNewCovPix m (ucPairs pixel values) :=
    parent_mem_ucNewCovPix m _ q hq
  obtain ⟨jc, hjc, hval⟩ := ucTemp_getD_mem m _ _ hcm hclt
  rw [hval]
  have hnfe : ((2 ^ m.bitShift : Nat) : Int) = (nFinePerCov m : Int) := rfl
  have h1 : ((q.1 : Nat) : Int)
      = ((q.1 >>> m.bitShift : Nat) : Int) * ((2 ^ m.bitShift : Nat) : Int)
        + ((q.1 % 2 ^ m.bitShift : Nat) : Int) := by
    rw [← Nat.cast_mul, ← Nat.cast_add]
    exact congrArg (fun n : Nat => (n : Int)) (pixel_decomp q.1 m.bitShift)
  have h2 : ((q.1 % 2 ^ m.bitShift : Nat) : Int) < ((2 ^ m.bitShift : Nat) : Int) :=
    Int.ofNat_lt.mpr (localPos_lt q.1 m.bitShift)
  rw [hnfe] at h1 h2
  have hlp : (0 : Int) ≤ ((q.1 % 2 ^ m.bitShift : Nat) : Int) := Int.natCast_nonneg _
  have hnf : (0 : Int) ≤ (nFinePerCov m : Int) := Int.natCast_nonneg _
  have hjci : ((jc : Nat) : Int) + 1 ≤ ((ucNewCovPix m (ucPairs pixel values)).length : Int) := by
    exact_mod_cast hjc
  have hjcn : (0 : Int) ≤ ((jc : Nat) : Int) := Int.natCast_nonneg _
  constructor
  · have h3 : (0 : Int) ≤ ((jc : Nat) : Int) * (nFinePerCov m : Int) :=
      mul_nonneg hjcn hnf
    omega
  · have h3 : (((jc : Nat) : Int) + 1) * (nFinePerCov m : Int)
        ≤ ((ucNewCovPix m (ucPairs pixel values)).length : Int) * (nFinePerCov m : Int) :=
      mul_le_mul_of_nonneg_right hjci hnf
    have h4 : (((jc : Nat) : Int) + 1) * (nFinePerCov m : Int)
        = ((jc : Nat) : Int) * (nFinePerCov m : Int) + (nFinePerCov m : Int) := by ring
    omega

/-- Replaying the same update over the grown map changes nothing: every
target is now in coverage, and each target's address already holds the
last value assigned to it by the first pass. -/
theorem updateCore_second_pass (m M1 : HealSparseMap) (pixel : List Nat) (values : List Int)
    (hbs : M1.bitShift = m.bitShift)
    (hcovM1 : M1.covIndexMap = ucTemp m (ucPairs pixel values))
    (hsm : M1.sparseMap = ucS1 m (ucPairs pixel values) ++ ucAppend m (ucPairs pixel values))
    (hwf : WellFormed m)
    (hrange : ∀ p ∈ pixel, p >>> m.bitShift < nCovPix m) :
    updateCore M1 pixel values = M1 := by
  have hlen := hwf.2.1
  have hcovb := hwf.2.2.2.1
  have hleni : (nFinePerCov m : Int) ≤ (m.sparseMap.length : Int) := by exact_mod_cast hlen
  have hnfp : (0 : Int) < (nFinePerCov m : Int) := by exact_mod_cast nFinePerCov_pos m
  have hqlt : ∀ q ∈ ucPairs pixel values, q.1 >>> m.bitShift < nCovPix m := by
    intro q hq
    unfold ucPairs at hq
    exact hrange q.1 (List.of_mem_zip hq).1
  have haddr2 : ∀ q : Nat, lookupAddr M1 q
      = (q : Int) + (ucTemp m (ucPairs pixel values)).getD (q >>> m.bitShift) 0 := by
    intro q
    unfold lookupAddr
    rw [hbs, hcovM1]
  have hnfe : nFinePerCov M1 = nFinePerCov m := by
    unfold nFinePerCov
    rw [hbs]
  have hoff2 : ∀ c : Nat, offsetOf M1 c
      = (ucTemp m (ucPairs pixel values)).getD c 0 + (c : Int) * (nFinePerCov m : Int) := by
    intro c
    unfold offsetOf
    rw [hcovM1, hnfe]
  have htempcov : ∀ q ∈ ucPairs pixel values, coverageMask m (q.1 >>> m.bitShift) = true →
      (ucTemp m (ucPairs pixel values)).getD (q.1 >>> m.bitShift) 0
        = m.covIndexMap.getD (q.1 >>> m.bitShift) 0 := by
    intro q _ hcov
    apply ucTemp_getD_not_mem
    intro hmem
    exact absurd hcov (by rw [mem_ucNewCovPix_not_covered m _ _ hmem]; exact Bool.false_ne_true)
  have hout_of_not : ∀ q ∈ ucPairs pixel values, coverageMask m (q.1 >>> m.bitShift) = false →
      q ∈ ucOutCov m (ucPairs pixel values) := by
    intro q hq hcov
    unfold ucOutCov
    rw [List.mem_filter]
    exact ⟨hq, by rw [hcov]; rfl⟩
  have hcovall : ∀ q ∈ ucPairs pixel values,
      coverageMask M1 (q.1 >>> M1.bitShift) = true := by
    intro q hq
    rw [hbs]
    by_cases hcov : coverageMask m (q.1 >>> m.bitShift) = true
    · rw [coverageMask_congr m M1 (q.1 >>> m.bitShift) hbs
        (by rw [hcovM1]; exact htempcov q hq hcov)]
      exact hcov
    · have hcf : coverageMask m (q.1 >>> m.bitShift) = false := by
        revert hcov
        cases coverageMask m (q.1 >>> m.bitShift) <;> simp
      have hqout := hout_of_not q hq hcf
      have hcm := parent_mem_ucNewCovPix m _ q hqout
      obtain ⟨jc, _, hval⟩ := ucTemp_getD_mem m _ _ hcm (hqlt q hq)
      rw [coverageMask_iff, hnfe, hoff2, hval]
      have hj0 : (0 : Int) ≤ ((jc : Nat) : Int) * (nFinePerCov m : Int) :=
        mul_nonneg (Int.natCast_nonneg _) (le_of_lt hnfp)
      omega
  have hnil2 : ucOutCov M1 (ucPairs pixel values) = [] := by
    unfold ucOutCov
    rw [List.filter_eq_nil_iff]
    intro q hq
    rw [hcovall q hq]
    simp
  rw [updateCore_all_covered M1 pixel values hnil2]
  have hin2 : ucInCov M1 (ucPairs pixel values) = ucPairs pixel values := by
    unfold ucInCov
    rw [List.filter_eq_self]
    intro q hq
    exact hcovall q hq
  have hs1M1 : ucS1 M1 (ucPairs pixel values)
      = writeSeq M1.sparseMap
          ((ucPairs pixel values).map (fun q => (lookupAddr M1 q.1, q.2))) := by
    unfold ucS1
    rw [hin2]
  have hpos2 : ∀ pr ∈ (ucPairs pixel values).map (fun q => (lookupAddr M1 q.1, q.2)),
      0 ≤ pr.1 := by
    intro pr hpr
    obtain ⟨q, hq, he⟩ := List.mem_map.mp hpr
    have h1 : (nFinePerCov M1 : Int) ≤ lookupAddr M1 q.1 :=
      nf_le_lookupAddr M1 q.1 (hcovall q hq)
    rw [← he]
    have h2 : (0 : Int) ≤ (nFinePerCov M1 : Int) := Int.natCast_nonneg _
    show 0 ≤ lookupAddr M1 q.1
    omega
  suffices hfix : writeSeq M1.sparseMap
      ((ucPairs pixel values).map (fun q => (lookupAddr M1 q.1, q.2))) = M1.sparseMap by
    rw [hs1M1, hfix]
  apply list_eq_of_getD
  · exact writeSeq_length _ _
  · intro j hj
    rw [writeSeq_length] at hj
    rw [writeSeq_getD _ _ j hj hpos2]
    have hkey : ∀ v : Int,
        lastAssign ((ucPairs pixel values).map (fun q => (lookupAddr M1 q.1, q.2))) (j : Int)
          = some v → M1.sparseMap.getD j 0 = v := by
      intro v hla
      by_cases hjlen : j < m.sparseMap.length
      · -- old region: the second-pass writes here coincide with the
        -- first pass's in-coverage writes
        have hji : ((j : Nat) : Int) < (m.sparseMap.length : Int) := by exact_mod_cast hjlen
        have hW1 := lastAssign_map_filter (ucPairs pixel values)
          (fun q => coverageMask m (q.1 >>> m.bitShift))
          (fun q => lookupAddr m q.1) (fun q => lookupAddr M1 q.1) (j : Int)
          (fun q hq hcov => by
            show lookupAddr M1 q.1 = lookupAddr m q.1
            rw [haddr2 q.1]
            unfold lookupAddr
            rw [htempcov q hq hcov])
          (fun q hq hcov => by
            show lookupAddr M1 q.1 ≠ ((j : Nat) : Int)
            have hqout := hout_of_not q hq hcov
            have hb := ucOut_addr_bounds m pixel values hrange q hqout
            rw [haddr2 q.1]
            omega)
        rw [hW1] at hla
        have hgd : M1.sparseMap.getD j 0 = (ucS1 m (ucPairs pixel values)).getD j 0 := by
          rw [hsm]
          rw [List.getD_append]
          rw [ucS1_length]
          exact hjlen
        have hgd2 : (ucS1 m (ucPairs pixel values)).getD j 0
            = (lastAssign ((ucInCov m (ucPairs pixel values)).map
                (fun q => (lookupAddr m q.1, q.2))) (j : Int)).getD (m.sparseMap.getD j 0) := by
          unfold ucS1
          exact writeSeq_getD _ _ j hjlen (ucInCovWrites_fst_nonneg m _)
        rw [hgd, hgd2]
        have hconv : (ucPairs pixel values).filter (fun q => coverageMask m (q.1 >>> m.bitShift))
            = ucInCov m (ucPairs pixel values) := rfl
        rw [hconv] at hla
        rw [hla]
        rfl
      · -- appended region: the second-pass writes here coincide with the
        -- first pass's out-of-coverage writes into the appended blocks
        have hjge : m.sparseMap.length ≤ j := by omega
        have hji : (m.sparseMap.length : Int) ≤ ((j : Nat) : Int) := by exact_mod_cast hjge
        have hW2 := lastAssign_map_filter (ucPairs pixel values)
          (fun q => !coverageMask m (q.1 >>> m.bitShift))
          (fun q => lookupAddr M1 q.1) (fun q => lookupAddr M1 q.1) (j : Int)
          (fun q _ _ => rfl)
          (fun q hq hcov => by
            show lookupAddr M1 q.1 ≠ ((j : Nat) : Int)
            have hcov' : (!coverageMask m (q.1 >>> m.bitShift)) = false := hcov
            have hct : coverageMask m (q.1 >>> m.bitShift) = true := by
              revert hcov'
              cases coverageMask m (q.1 >>> m.bitShift) <;> simp
            obtain ⟨h1, h2, _⟩ := hcovb _ (hqlt q hq) hct
            have haeq : lookupAddr M1 q.1 = lookupAddr m q.1 := by
              rw [haddr2 q.1]
              unfold lookupAddr
              rw [htempcov q hq hct]
            rw [haeq, lookupAddr_eq]
            have hl : ((q.1 % 2 ^ m.bitShift : Nat) : Int) < (nFinePerCov m : Int) := by
              exact_mod_cast localPos_lt q.1 m.bitShift
            have hl0 : (0 : Int) ≤ ((q.1 % 2 ^ m.bitShift : Nat) : Int) := Int.natCast_nonneg _
            omega)
        rw [hW2] at hla
        have hconv : (ucPairs pixel values).filter (fun q => !coverageMask m (q.1 >>> m.bitShift))
            = ucOutCov m (ucPairs pixel values) := rfl
        rw [hconv] at hla
        have hShift := lastAssign_shift (ucOutCov m (ucPairs pixel values))
          (fun q => lookupAddr M1 q.1) (m.sparseMap.length : Int) (j : Int)
        rw [hShift] at hla
        have happ : (ucOutCov m (ucPairs pixel values)).map
            (fun q => (lookupAddr M1 q.1 - (m.sparseMap.length : Int), q.2))
            = (ucOutCov m (ucPairs pixel values)).map
                (fun q => ((q.1 : Int) + (ucTemp m (ucPairs pixel values)).getD
                    (q.1 >>> m.bitShift) 0 - (m.sparseMap.length : Int), q.2)) := by
          apply List.map_congr_left
          intro q _
          rw [haddr2 q.1]
        rw [happ] at hla
        have hjcast : ((j - m.sparseMap.length : Nat) : Int) = (j : Int) - (m.sparseMap.length : Int) := by
          omega
        have hgd : M1.sparseMap.getD j 0 = (ucAppend m (ucPairs pixel values)).getD
            (j - m.sparseMap.length) 0 := by
          rw [hsm]
          rw [List.getD_append_right]
          · rw [ucS1_length]
          · rw [ucS1_length]
            exact hjge
        have hjr : j - m.sparseMap.length < ((ucNewCovPix m (ucPairs pixel values)).length
            * nFinePerCov m) := by
          rw [hsm, List.length_append, ucS1_length, ucAppend_length] at hj
          omega
        have hposA : ∀ pr ∈ (ucOutCov m (ucPairs pixel values)).map
            (fun q => ((q.1 : Int) + (ucTemp m (ucPairs pixel values)).getD
                (q.1 >>> m.bitShift) 0 - (m.sparseMap.length : Int), q.2)), 0 ≤ pr.1 := by
          intro pr hpr
          obtain ⟨q, hq, he⟩ := List.mem_map.mp hpr
          have hb := ucOut_addr_bounds m pixel values hrange q hq
          rw [← he]
          show 0 ≤ (q.1 : Int) + (ucTemp m (ucPairs pixel values)).getD
              (q.1 >>> m.bitShift) 0 - (m.sparseMap.length : Int)
          omega
        have hgd2 : (ucAppend m (ucPairs pixel values)).getD (j - m.sparseMap.length) 0
            = (lastAssign ((ucOutCov m (ucPairs pixel values)).map
                (fun q => ((q.1 : Int) + (ucTemp m (ucPairs pixel values)).getD
                    (q.1 >>> m.bitShift) 0 - (m.sparseMap.length : Int), q.2)))
                ((j - m.sparseMap.length : Nat) : Int)).getD
              ((List.replicate ((ucNewCovPix m (ucPairs pixel values)).length * nFinePerCov m)
                ((ucS1 m (ucPairs pixel values)).getD 0 0)).getD (j - m.sparseMap.length) 0) := by
          unfold ucAppend
          exact writeSeq_getD _ _ (j - m.sparseMap.length)
            (by rw [List.length_replicate]; exact hjr) hposA
        rw [hgd, hgd2, hjcast, hla]
        rfl
    cases hla : lastAssign ((ucPairs pixel values).map
        (fun q => (lookupAddr M1 q.1, q.2))) (j : Int) with
    | none => rfl
    | some v => exact (hkey v hla).symm

/-- When every target is already in coverage, replaying the identical
update rewrites each address with the value it already holds. -/
theorem updateCore_idem_no_growth (m : HealSparseMap) (pixel : List Nat) (values : List Int)
    (hnil : ucOutCov m (ucPairs pixel values) = []) :
    updateCore (updateCore m pixel values) pixel values = updateCore m pixel values := by
  rw [updateCore_all_covered m pixel values hnil]
  have hnil1 : ucOutCov { m with sparseMap := ucS1 m (ucPairs pixel values) }
      (ucPairs pixel values) = [] := hnil
  rw [updateCore_all_covered _ pixel values hnil1]
  have hfix : ucS1 { m with sparseMap := ucS1 m (ucPairs pixel values) }
      (ucPairs pixel values) = ucS1 m (ucPairs pixel values) :=
    writeSeq_idem m.sparseMap _ (ucInCovWrites_fst_nonneg m _)
  rw [hfix]

/-- C3: calling `updateValues` twice with the same pixels and values
leaves the map in the same final state as calling it once — values are
overwritten, not accumulated, and the second call grows nothing. -/
theorem C3_update_idempotent (m : HealSparseMap) (pixel : List Nat) (a : NdArray)
    (hwf : WellFormed m)
    (hrange : ∀ p ∈ pixel, p >>> m.bitShift < nCovPix m)
    (m1 m2 : HealSparseMap)
    (h1 : updateValues m pixel (some a) = .ok m1)
    (h2 : updateValues m1 pixel (some a) = .ok m2) :
    m2 = m1 := by
  rw [updateValues_ok_eq m pixel a m1 h1] at h2 ⊢
  rw [updateValues_ok_eq _ pixel a m2 h2]
  by_cases hnil : ucOutCov m (ucPairs pixel a.data) = []
  · exact updateCore_idem_no_growth m pixel a.data hnil
  · rw [updateCore_growth_eq m pixel a.data hnil]
    exact updateCore_second_pass m _ pixel a.data rfl rfl rfl hwf hrange

theorem C3_update_idempotent_witness :
    updateCore (updateCore mapA [5, 0] [11, 22]) [5, 0] [11, 22]
      = updateCore mapA [5, 0] [11, 22] := by
  have h := C3_update_idempotent mapA [5, 0] { dtype := DType.i64, data := [11, 22] }
    (by decide) (by decide)
    (updateCore mapA [5, 0] [11, 22])
    (updateCore (updateCore mapA [5, 0] [11, 22]) [5, 0] [11, 22])
    rfl rfl
  exact h
